import Mathlib

/-!
# Lower-bound lookup structures of `main.cpp`

A shallow embedding of the three lookup structures (`binary_search_sln`,
`seg_tree_sln`, `layers_sln`), of the data generator `build_test`, of the query
runner `solve` and of the trial harness `test_case`.

Conventions of the embedding:
* `std::vector<uint64_t>` is `List Nat`; an element access past the end is the
  fault `Fault.outOfBounds` (undefined behaviour in the source);
* `std::size_t` / `uint64_t` arithmetic is arithmetic on `Nat` reduced by
  `wrap64`, conversion to `int` is `toInt32`;
* loops of the source are recursions on an iteration budget; a budget that runs
  out is the fault `Fault.outOfFuel`;
* the compile-time constants `N`, `M`, `TESTS`, `L`, `P` are parameters of the
  definitions; their compiled values are `N`, `M`, `TESTS`, `layers_sln.L`,
  `layers_sln.P` below.
-/

namespace FindAlgo

/-! ## Constants (main.cpp:9-12, 79-81) -/

/-- Number of trials per variant, `TESTS`. -/
def TESTS : Nat := 5
/-- Length of the key sequence, `N`. -/
def N : Nat := 100000
/-- Length of the query sequence, `M`. -/
def M : Nat := 10000000
/-- Modulus of the rolling hash, `MOD = 1e9 + 7`. -/
def MOD : Nat := 1000000007

/-! ## Machine integers and memory -/

/-- Reduction of a natural number to an unsigned 64-bit value. -/
def wrap64 (n : Nat) : Nat := n % 18446744073709551616

/-- Unsigned 64-bit subtraction `a - b` of two unsigned 64-bit values. -/
def sub64 (a b : Nat) : Nat := wrap64 (a + (18446744073709551616 - wrap64 b))

/-- Conversion of an unsigned value to `int`: reduction modulo `2^32` to the
range `[-2^31, 2^31)`. -/
def toInt32 (n : Nat) : Int :=
  if n % 4294967296 < 2147483648 then ((n % 4294967296 : Nat) : Int)
  else ((n % 4294967296 : Nat) : Int) - 4294967296

/-- Conversion of an `int` to `std::size_t`. -/
def intToSize (i : Int) : Nat := (i % 18446744073709551616).toNat

/-- Ways in which a modelled run fails to produce a value. -/
inductive Fault where
  | outOfBounds
  | outOfFuel
  deriving DecidableEq

/-- Element read `xs[i]` of a vector. -/
def readAt {α : Type} (xs : List α) (i : Nat) : Except Fault α :=
  match xs[i]? with
  | some a => .ok a
  | none => .error .outOfBounds

/-- Element write `xs[i] = a` of a vector. -/
def writeAt {α : Type} (xs : List α) (i : Nat) (a : α) : Except Fault (List α) :=
  if i < xs.length then .ok (xs.set i a) else .error .outOfBounds

/-! ## binary_search_sln (main.cpp:14-23) -/

/-- The bisection loop of `std::lower_bound` on the range `[first, first + len)`:
`while (len > 0) { half = len >> 1; middle = first + half;
if (*middle < x) { first = middle + 1; len = len - half - 1; } else len = half; }`.
The first argument bounds the number of iterations; `len` iterations always suffice. -/
def lowerBoundLoop (data : List Nat) (x : Nat) : Nat → Nat → Nat → Nat
  | 0, first, _ => first
  | fuel + 1, first, len =>
    if 0 < len then
      let half := len / 2
      let middle := first + half
      if data.getD middle 0 < x then
        lowerBoundLoop data x fuel (middle + 1) (len - half - 1)
      else
        lowerBoundLoop data x fuel first half
    else first

/-- The call `std::lower_bound(data.begin(), data.end(), x) - data.begin()`. -/
def std_lower_bound (data : List Nat) (x : Nat) : Nat :=
  lowerBoundLoop data x data.length 0 data.length

/-- The structure `binary_search_sln`: a copy of the key sequence. -/
structure binary_search_sln where
  data : List Nat

/-- Member `binary_search_sln::get`. -/
def binary_search_sln.get (s : binary_search_sln) (x : Nat) : Int :=
  toInt32 (std_lower_bound s.data x)

/-! ## seg_tree_sln (main.cpp:25-75) -/

/-- The structure `seg_tree_sln`: the key sequence and the routing tree. -/
structure seg_tree_sln where
  data : List Nat
  tree : List Nat

/-- Member `seg_tree_sln::build_segtree(v, tl, tr)`, acting on the vector `tree`;
the budget bounds the depth of the recursion. -/
def seg_tree_sln.build_segtree (data : List Nat) :
    Nat → List Nat → Nat → Nat → Nat → Except Fault (List Nat)
  | 0, _, _, _, _ => .error .outOfFuel
  | fuel + 1, tree, v, tl, tr =>
    if tl = tr then do
      let d ← readAt data tl
      writeAt tree v d
    else do
      let tm := wrap64 (tl + tr) / 2
      let tree ← seg_tree_sln.build_segtree data fuel tree (wrap64 (2 * v + 1)) tl tm
      let tree ← seg_tree_sln.build_segtree data fuel tree (wrap64 (2 * v + 2))
        (wrap64 (tm + 1)) tr
      let d ← readAt data tm
      writeAt tree v d

/-- Constructor `seg_tree_sln::seg_tree_sln(data_)` for the compiled length `N`. -/
def seg_tree_sln.new (N fuel : Nat) (data_ : List Nat) : Except Fault seg_tree_sln := do
  let tree := List.replicate (wrap64 (4 * N)) 0
  let tree ← seg_tree_sln.build_segtree data_ fuel tree 0 0 (sub64 N 1)
  pure { data := data_, tree := tree }

/-- Member `seg_tree_sln::lower_bound(v, tl, tr, x)`. -/
def seg_tree_sln.lower_bound (tree : List Nat) (x : Nat) :
    Nat → Nat → Nat → Nat → Except Fault Nat
  | fuel, v, tl, tr =>
    if tl = tr then .ok tl
    else
      match fuel with
      | 0 => .error .outOfFuel
      | fuel + 1 => do
        let tm := wrap64 (tl + tr) / 2
        let node ← readAt tree v
        if x ≤ node then
          seg_tree_sln.lower_bound tree x fuel (wrap64 (2 * v + 1)) tl tm
        else
          seg_tree_sln.lower_bound tree x fuel (wrap64 (2 * v + 2)) (wrap64 (tm + 1)) tr

/-- Member `seg_tree_sln::get`. -/
def seg_tree_sln.get (N fuel : Nat) (s : seg_tree_sln) (x : Nat) : Except Fault Nat := do
  let last ← readAt s.data (sub64 N 1)
  if x > last then pure N
  else seg_tree_sln.lower_bound s.tree x fuel 0 0 (sub64 N 1)


/-! ## layers_sln (main.cpp:77-108) -/

namespace layers_sln

/-- Compiled number of layers, `layers_sln::L`. -/
def L : Nat := 3
/-- Compiled stride, `layers_sln::P`. -/
def P : Nat := 51

end layers_sln

/-- The structure `layers_sln`: the vector of layers. -/
structure layers_sln where
  layers : List (List Nat)

/-- Inner loop of the constructor,
`for (index = 0; index < layers[layer].size(); index += P)
   layers[layer + 1].push_back(layers[layer][index]);`, entered at `index`. -/
def layers_sln.fill (P layer : Nat) :
    Nat → Nat → List (List Nat) → Except Fault (List (List Nat))
  | fuel, index, layers => do
    let src ← readAt layers layer
    if index < src.length then
      match fuel with
      | 0 => .error .outOfFuel
      | fuel + 1 => do
        let a ← readAt src index
        let dst ← readAt layers (wrap64 (layer + 1))
        let layers ← writeAt layers (wrap64 (layer + 1)) (dst ++ [a])
        layers_sln.fill P layer fuel (wrap64 (index + P)) layers
    else pure layers

/-- Outer loop of the constructor, `for (layer = 0; layer + 1 < L; layer++)`,
entered at `layer`; `inner` is the budget of each inner loop. -/
def layers_sln.build (P L inner : Nat) :
    Nat → Nat → List (List Nat) → Except Fault (List (List Nat))
  | fuel, layer, layers =>
    if wrap64 (layer + 1) < L then
      match fuel with
      | 0 => .error .outOfFuel
      | fuel + 1 => do
        let layers ← layers_sln.fill P layer inner 0 layers
        layers_sln.build P L inner fuel (wrap64 (layer + 1)) layers
    else pure layers

/-- Constructor `layers_sln::layers_sln(data)` for `L` layers of stride `P`. -/
def layers_sln.new (P L fuel : Nat) (data : List Nat) : Except Fault layers_sln := do
  let layers := List.replicate L ([] : List Nat)
  let layers ← writeAt layers 0 data
  let layers ← layers_sln.build P L fuel fuel 0 layers
  pure { layers := layers }

/-- The scan `while (index + 1 < layers[layer].size() && layers[layer][index + 1] < x) index++;`
inside the layer `row`. -/
def layers_sln.scan (row : List Nat) (x : Nat) : Nat → Nat → Except Fault Nat
  | fuel, index =>
    if wrap64 (index + 1) < row.length then do
      let a ← readAt row (wrap64 (index + 1))
      if a < x then
        match fuel with
        | 0 => .error .outOfFuel
        | fuel + 1 => layers_sln.scan row x fuel (wrap64 (index + 1))
      else pure index
    else pure index

/-- The loop `for (int layer = ...; layer >= 0; layer--)` of `get`; the first
argument is `layer + 1`, so `0` is the exit with `layer = -1`. -/
def layers_sln.descend (P fuel : Nat) (layers : List (List Nat)) (x : Nat) :
    Nat → Nat → Except Fault Nat
  | 0, index => pure index
  | layer + 1, index => do
    let index := wrap64 (index * P)
    let row ← readAt layers layer
    let index ← layers_sln.scan row x fuel index
    layers_sln.descend P fuel layers x layer index

/-- Member `layers_sln::get`, for `L` layers of stride `P` and the compiled length `N`. -/
def layers_sln.get (P L N fuel : Nat) (s : layers_sln) (x : Nat) : Except Fault Nat := do
  let layer : Int := toInt32 (sub64 L 1)
  let index ← layers_sln.descend P fuel s.layers x (layer + 1).toNat 0
  if index < N then do
    let row ← readAt s.layers 0
    let a ← readAt row index
    if a < x then pure (wrap64 (index + 1)) else pure index
  else pure index

/-! ## build_test (main.cpp:110-121) -/

/-- The pseudorandom engine `std::mt19937_64`, kept abstract: how a seed gives a
state and how `gen()` yields one 64-bit output and the next state. -/
structure Engine (σ : Type) where
  seed : Nat → σ
  next : σ → Nat × σ

/-- The call `distrib(gen)`: the distribution covers the whole range
`[0, 2^64 - 1]` of the engine, so a draw is one output of `gen`. -/
def distrib {σ : Type} (e : Engine σ) (gen : σ) : Nat × σ := e.next gen

/-- The loop `for (index = 0; index < size; index++) vec[index] = distrib(gen);`
with `left = size - index` iterations to go; `index` stays below the size of
`vec`, so the write is `List.set` and the increment does not wrap. -/
def drawLoop {σ : Type} (e : Engine σ) : Nat → Nat → List Nat → σ → List Nat × σ
  | 0, _, vec, gen => (vec, gen)
  | left + 1, index, vec, gen =>
    let d := distrib e gen
    drawLoop e left (index + 1) (vec.set index d.1) d.2

/-- The function `build_test` on the generator state `gen`: the pair
`(data, requests)` and the state left behind. `std::sort` is insertion sort. -/
def build_test {σ : Type} (e : Engine σ) (N M : Nat) (gen : σ) :
    (List Nat × List Nat) × σ :=
  let data := List.replicate N 0
  let requests := List.replicate M 0
  let r := drawLoop e N 0 data gen
  let data := r.1.insertionSort (· ≤ ·)
  let q := drawLoop e M 0 requests r.2
  ((data, q.1), q.2)

/-! ## solve and test_case (main.cpp:123-161) -/

/-- The loop of `solve` over the remaining requests, from the accumulator `hash`. -/
def solveLoop (get : Nat → Except Fault Nat) : List Nat → Nat → Except Fault Nat
  | [], hash => pure hash
  | x :: rest, hash => do
    let index ← get x
    let hash := wrap64 (hash * 13)
    let hash := wrap64 (hash + wrap64 (index + 1))
    let hash := hash % MOD
    solveLoop get rest hash

/-- The function template `solve(sln, requests)`; `get` is `sln.get` with its
result converted to `std::size_t`. -/
def solve (get : Nat → Except Fault Nat) (requests : List Nat) : Except Fault Nat :=
  solveLoop get requests 0

/-- What `test_case` and `solve` ask of the template parameter `Solution`:
construction from the key sequence and `get` as a `std::size_t`. -/
structure Solution where
  S : Type
  new : List Nat → Except Fault S
  get : S → Nat → Except Fault Nat

/-- Instantiation with `binary_search_sln`. -/
def Solution.binary_search : Solution where
  S := binary_search_sln
  new := fun data => pure { data := data }
  get := fun s x => pure (intToSize (s.get x))

/-- Instantiation with `seg_tree_sln`. -/
def Solution.seg_tree (N fuel : Nat) : Solution where
  S := seg_tree_sln
  new := seg_tree_sln.new N fuel
  get := seg_tree_sln.get N fuel

/-- Instantiation with `layers_sln`. -/
def Solution.layers (P L N fuel : Nat) : Solution where
  S := layers_sln
  new := layers_sln.new P L fuel
  get := layers_sln.get P L N fuel

/-- One executed trial: the data built for it and the hash printed for it. -/
structure Trial where
  data : List Nat
  requests : List Nat
  hash : Nat

/-- What a run of `test_case` leaves: the trials in order, the printed total
hash and the state of the global generator. -/
structure Report (σ : Type) where
  trials : List Trial
  total_hash : Nat
  gen : σ

/-- The trial loop `for (test = 1; test <= TESTS; test++)` of `test_case` with
`left` iterations to go. -/
def trialLoop {σ : Type} (e : Engine σ) (N M : Nat) (sol : Solution) :
    Nat → Report σ → Except Fault (Report σ)
  | 0, r => pure r
  | left + 1, r => do
    let t := build_test e N M r.gen
    let sln ← sol.new t.1.1
    let hash ← solve (sol.get sln) t.1.2
    let total_hash := wrap64 (r.total_hash * 1273)
    let total_hash := wrap64 (total_hash + hash)
    let total_hash := total_hash % MOD
    trialLoop e N M sol left
      { trials := r.trials ++ [{ data := t.1.1, requests := t.1.2, hash := hash }],
        total_hash := total_hash, gen := t.2 }

/-- The function template `test_case<Solution>()`; `_gen` is the incoming state
of the global generator `gen`, which the first statement overwrites with the
engine seeded with `42`. The clock readings and the printing are left out; the
printed hashes are kept in the report. -/
def test_case {σ : Type} (e : Engine σ) (TESTS N M : Nat) (sol : Solution) (_gen : σ) :
    Except Fault (Report σ) :=
  trialLoop e N M sol TESTS { trials := [], total_hash := 0, gen := e.seed 42 }

/-- Construction of the structure from the key sequence followed by `solve`, as
in the body of a trial: `Solution sln(data); solve(sln, requests)`. -/
def Solution.run (sol : Solution) (data requests : List Nat) : Except Fault Nat := do
  let sln ← sol.new data
  solve (sol.get sln) requests

/-- The function `main`: the three trial series one after the other on the
global generator, whose incoming state is `gen`. -/
def main {σ : Type} (e : Engine σ) (TESTS N M P L fuel : Nat) (gen : σ) :
    Except Fault (Report σ × Report σ × Report σ) := do
  let r1 ← test_case e TESTS N M Solution.binary_search gen
  let r2 ← test_case e TESTS N M (Solution.seg_tree N fuel) r1.gen
  let r3 ← test_case e TESTS N M (Solution.layers P L N fuel) r2.gen
  pure (r1, r2, r3)

/-! ## Vocabulary of the specification

The predicates and functions below are not code of `main.cpp`; they state what
the code is claimed to compute. -/

/-- Heap positions below `v`: `u` lies in the subtree of the implicit binary
tree (children `2v+1`, `2v+2`) rooted at `v`. -/
def InSub (v u : Nat) : Prop := ∃ d, (u + 1) / 2 ^ d = v + 1

/-- Nodes of the routing tree: `Covers v tl tr u l r` says that the recursion
started at node `v` with range `[tl, tr]` reaches node `u` with range `[l, r]`. -/
inductive Covers : Nat → Nat → Nat → Nat → Nat → Nat → Prop
  | self (v tl tr : Nat) : Covers v tl tr v tl tr
  | left {v tl tr u l r : Nat} : tl ≠ tr →
      Covers (2 * v + 1) tl ((tl + tr) / 2) u l r → Covers v tl tr u l r
  | right {v tl tr u l r : Nat} : tl ≠ tr →
      Covers (2 * v + 2) ((tl + tr) / 2 + 1) tr u l r → Covers v tl tr u l r

/-- Size bookkeeping of a node `v` whose range has width `d = tr - tl`: `v + 1`
lies in a level `[k, 2k)` of the heap numbering that is not deeper than `N` allows. -/
def Fits (N v d : Nat) : Prop :=
  ∃ k, k ≤ v + 1 ∧ v + 1 < 2 * k ∧ d * k < N ∧ k < 2 * N

/-- Every `P`-th element of a layer in the words of the design: the elements
at the positions `0, P, 2P, ...` of `xs`, in order. -/
def sampled (P : Nat) (xs : List Nat) : List Nat :=
  (List.range ((xs.length + P - 1) / P)).map (fun j => xs.getD (j * P) 0)

/-- Lower-bound test of section 8: `(i == 0 or key[i-1] < x) and (i == N or key[i] >= x)`. -/
def LowerBoundCorrect (key : List Nat) (x i : Nat) : Prop :=
  (i = 0 ∨ key.getD (i - 1) 0 < x) ∧ (i = key.length ∨ x ≤ key.getD i 0)

/-- Lower-bound position in the words of the glossary: the smallest index `i`
with `key[i] ≥ x`, or the length when no key is `≥ x`. -/
def IsLowerBound (key : List Nat) (x i : Nat) : Prop :=
  (i < key.length ∧ x ≤ key.getD i 0 ∧ ∀ j, j < i → key.getD j 0 < x) ∨
  (i = key.length ∧ ∀ j, j < key.length → key.getD j 0 < x)

/-- The keys below `x` are exactly those at the positions before `p`. -/
def Thresh (key : List Nat) (x p : Nat) : Prop :=
  p ≤ key.length ∧ ∀ i, i < key.length → (key.getD i 0 < x ↔ i < p)

/-- What the constructor of `layers_sln` leaves in `layers`. -/
structure Layered (P L : Nat) (data : List Nat) (ls : List (List Nat)) : Prop where
  length_eq : ls.length = L
  first : ls[0]? = some data
  next : ∀ k, k + 1 < L → ∃ row, ls[k]? = some row ∧ ls[k + 1]? = some (sampled P row)
  size_le : ∀ (k : Nat) (row : List Nat), ls[k]? = some row → row.length ≤ data.length

/-- Threshold of the `k`-th layer when the threshold of the key sequence is `p`. -/
def layerThresh (P p : Nat) : Nat → Nat
  | 0 => p
  | k + 1 => (layerThresh P p k + P - 1) / P

/-- Number of iterations of the layer loop of `get`: `layer + 1` for the
initial value `int layer = L - 1`. -/
def layerCount (L : Nat) : Nat := (toInt32 (sub64 L 1) + 1).toNat

/-- The rolling hash in the words of the data model: `h ← (h * 13 + (index + 1)) mod (10^9 + 7)`
over the exact integers, starting from `h`. -/
def rollingHashFrom (h : Nat) (indices : List Nat) : Nat :=
  indices.foldl (fun h index => (h * 13 + (index + 1)) % 1000000007) h

/-- The rolling hash of a sequence of indices, starting from `0`. -/
def rollingHash (indices : List Nat) : Nat := rollingHashFrom 0 indices

/-- The first `n` values drawn from the generator state `gen`, in the order drawn. -/
def draws {σ : Type} (e : Engine σ) : Nat → σ → List Nat
  | 0, _ => []
  | n + 1, gen => (e.next gen).1 :: draws e n (e.next gen).2

/-- The generator state after `n` values have been drawn from `gen`. -/
def afterDraws {σ : Type} (e : Engine σ) : Nat → σ → σ
  | 0, gen => gen
  | n + 1, gen => afterDraws e n (e.next gen).2

/-- The `(data, requests)` pairs of `t` consecutive calls of `build_test` from `gen`. -/
def trialInputs {σ : Type} (e : Engine σ) (N M : Nat) : Nat → σ → List (List Nat × List Nat)
  | 0, _ => []
  | t + 1, gen => (build_test e N M gen).1 :: trialInputs e N M t (build_test e N M gen).2

/-- The `(data, requests)` pairs a run of `test_case` went through. -/
def Report.inputs {σ : Type} (r : Report σ) : List (List Nat × List Nat) :=
  r.trials.map (fun t => (t.data, t.requests))

/-- The cross-trial accumulator in the words of the data model:
`total ← (total * 1273 + trial_hash) mod (10^9 + 7)` over the exact integers,
starting from `total`. -/
def crossHashFrom (total : Nat) (hashes : List Nat) : Nat :=
  hashes.foldl (fun total hash => (total * 1273 + hash) % 1000000007) total

/-- The cross-trial accumulator of a sequence of per-trial hashes, starting from `0`. -/
def crossHash (hashes : List Nat) : Nat := crossHashFrom 0 hashes

/-- The generator state from which the call of `build_test` number `t + 1` of a
trial series starts when the engine is seeded once, before the first call. -/
def trialStart {σ : Type} (e : Engine σ) (N M : Nat) : Nat → σ
  | 0 => e.seed 42
  | t + 1 => (build_test e N M (trialStart e N M t)).2

/-- A small linear congruential engine, used for concrete runs of the harness. -/
def demoEngine : Engine Nat where
  seed := fun s => s
  next := fun g => ((g * 7 + 3) % 101, (g * 7 + 3) % 101)

/-! ## Runs of the segment tree, step by step

The two functions below list what a run of `build_segtree` and of the loop of
`lower_bound` goes through; they follow the same branches as the definitions
above. -/

/-- The calls `build_segtree(v, tl, tr)` that a call of `build_segtree` makes,
itself included, each listed as `(v, tl, tr)` at the moment it writes `tree[v]`. -/
def seg_tree_sln.build_calls : Nat → Nat → Nat → Nat → List (Nat × Nat × Nat)
  | 0, _, _, _ => []
  | fuel + 1, v, tl, tr =>
    if tl = tr then [(v, tl, tr)]
    else
      seg_tree_sln.build_calls fuel (wrap64 (2 * v + 1)) tl (wrap64 (tl + tr) / 2) ++
        seg_tree_sln.build_calls fuel (wrap64 (2 * v + 2)) (wrap64 (wrap64 (tl + tr) / 2 + 1)) tr ++
        [(v, tl, tr)]

/-- The states `(v, tl, tr)` of the loop of `seg_tree_sln::lower_bound`: the
state at the start of every iteration, in order, followed by the state in which
the run stops (the exit of the loop, or the state in which the budget is used up
or `tree[v]` is past the end). Every state but the last reads `tree[v]`. -/
def seg_tree_sln.lower_bound_states (tree : List Nat) (x : Nat) :
    Nat → Nat → Nat → Nat → List (Nat × Nat × Nat)
  | fuel, v, tl, tr =>
    if tl = tr then [(v, tl, tr)]
    else
      match fuel with
      | 0 => [(v, tl, tr)]
      | fuel + 1 =>
        match tree[v]? with
        | none => [(v, tl, tr)]
        | some node =>
          (v, tl, tr) ::
            (if x ≤ node then
              seg_tree_sln.lower_bound_states tree x fuel (wrap64 (2 * v + 1)) tl
                (wrap64 (tl + tr) / 2)
            else
              seg_tree_sln.lower_bound_states tree x fuel (wrap64 (2 * v + 2))
                (wrap64 (wrap64 (tl + tr) / 2 + 1)) tr)

/-! ## Runs of the layered index, step by step -/

/-- The layers that the loop of `layers_sln::get` goes through, in order: for
each one `(layer, index after index *= P, index after the scan)`. The list
stops where the run stops: at the exit of the loop, at a layer that is past the
end of `layers`, or at a scan that does not return; the number of times the scan
of a layer executes `index++` is the difference of the two indices. -/
def layers_sln.descend_states (P fuel : Nat) (layers : List (List Nat)) (x : Nat) :
    Nat → Nat → List (Nat × Nat × Nat)
  | 0, _ => []
  | layer + 1, index =>
    match layers[layer]? with
    | none => []
    | some row =>
      match layers_sln.scan row x fuel (wrap64 (index * P)) with
      | .error _ => []
      | .ok index' =>
        (layer, wrap64 (index * P), index') ::
          layers_sln.descend_states P fuel layers x layer index'

/-! # Theorems -/

theorem wrap64_of_lt {n : Nat} (h : n < 18446744073709551616) : wrap64 n = n :=
  Nat.mod_eq_of_lt h

theorem readAt_of_lt (xs : List Nat) (i : Nat) (h : i < xs.length) :
    readAt xs i = .ok (xs.getD i 0) := by
  simp [readAt, List.getD, List.getElem?_eq_getElem h]

theorem sorted_thresh (key : List Nat) (x : Nat) (hs : key.Sorted (· ≤ ·)) :
    Thresh key x (key.countP (fun k => decide (k < x))) := by
  refine ⟨List.countP_le_length _, ?_⟩
  induction key with
  | nil => intro i hi; simp at hi
  | cons a l ih =>
    have hs' := List.sorted_cons.1 hs
    intro i hi
    by_cases ha : a < x
    · rw [List.countP_cons_of_pos _ _ (by simpa using ha)]
      cases i with
      | zero => simp [ha]
      | succ j =>
        have := ih hs'.2 j (by simpa using hi)
        simpa using this
    · have hz : l.countP (fun k => decide (k < x)) = 0 := by
        rw [List.countP_eq_zero]
        intro b hb
        have := hs'.1 b hb
        simp; omega
      rw [List.countP_cons_of_neg _ _ (by simpa using ha), hz]
      cases i with
      | zero => simp; omega
      | succ j =>
        have hj : j < l.length := by simpa using hi
        have hmem : l.getD j 0 ∈ l := by
          rw [List.getD_eq_getElem _ _ hj]; exact List.getElem_mem hj
        have := hs'.1 _ hmem
        have e : (a :: l).getD (j + 1) 0 = l.getD j 0 := rfl
        rw [e]; omega

theorem Thresh.isLowerBound {key : List Nat} {x p : Nat} (h : Thresh key x p) :
    IsLowerBound key x p := by
  rcases Nat.lt_or_ge p key.length with hp | hp
  · left
    refine ⟨hp, ?_, fun j hj => (h.2 j (by omega)).2 hj⟩
    have := h.2 p hp
    omega
  · right
    have hpe : p = key.length := le_antisymm h.1 hp
    exact ⟨hpe, fun j hj => (h.2 j hj).2 (by omega)⟩

theorem Thresh.unique {key : List Nat} {x p q : Nat} (h : Thresh key x p)
    (h' : IsLowerBound key x q) : q = p := by
  rcases h' with ⟨hq, hx, hlt⟩ | ⟨hq, hlt⟩
  · have h1 := h.2 q hq
    have hpq : p ≤ q := by omega
    rcases Nat.lt_or_ge p q with hlt' | hge
    · have := hlt p hlt'
      have := (h.2 p (by omega)).1 this
      omega
    · omega
  · rcases Nat.lt_or_ge p key.length with hp | hp
    · have := (h.2 p hp).1 (hlt p hp)
      omega
    · have := h.1; omega

theorem lowerBoundLoop_thresh (data : List Nat) (x p : Nat) (h : Thresh data x p) :
    ∀ fuel first len, len ≤ fuel → first ≤ p → p ≤ first + len → first + len ≤ data.length →
      lowerBoundLoop data x fuel first len = p := by
  intro fuel
  induction fuel with
  | zero => intro first len hl h1 h2 _; simp [lowerBoundLoop]; omega
  | succ fuel ih =>
    intro first len hl h1 h2 h3
    unfold lowerBoundLoop
    by_cases hlen : 0 < len
    · simp only [hlen, if_true]
      have hmid := h.2 (first + len / 2) (by omega)
      by_cases hc : data.getD (first + len / 2) 0 < x
      · simp only [hc, if_true]
        exact ih _ _ (by omega) (by omega) (by omega) (by omega)
      · simp only [hc, if_false]
        exact ih _ _ (by omega) (by omega) (by omega) (by omega)
    · simp only [hlen, if_false]; omega

theorem lowerBoundLoop_succ (data : List Nat) (x : Nat) :
    ∀ fuel first len, len ≤ fuel →
      lowerBoundLoop data x (fuel + 1) first len = lowerBoundLoop data x fuel first len := by
  intro fuel
  induction fuel with
  | zero =>
    intro first len h
    have : len = 0 := by omega
    subst this; rfl
  | succ fuel ih =>
    intro first len h
    rw [lowerBoundLoop, lowerBoundLoop.eq_def data x (fuel + 1)]
    by_cases h0 : 0 < len
    · simp only [h0, if_true]
      rw [ih _ _ (by omega), ih _ _ (by omega)]
    · simp only [h0, if_false]

/-- The iteration bound of `lowerBoundLoop` is immaterial once it is at least `len`. -/
theorem lowerBoundLoop_fuel (data : List Nat) (x : Nat) (first len : Nat) :
    ∀ fuel, len ≤ fuel →
      lowerBoundLoop data x fuel first len = lowerBoundLoop data x len first len := by
  intro fuel h
  induction fuel, h using Nat.le_induction with
  | base => rfl
  | succ fuel hle ih => rw [lowerBoundLoop_succ data x fuel first len hle, ih]

theorem std_lower_bound_thresh (data : List Nat) (x p : Nat) (h : Thresh data x p) :
    std_lower_bound data x = p :=
  lowerBoundLoop_thresh data x p h _ _ _ (le_refl _) (Nat.zero_le _) (by simpa using h.1) (by simp)

theorem toInt32_of_lt {n : Nat} (h : n < 2147483648) : toInt32 n = (n : Int) := by
  unfold toInt32
  have : n % 4294967296 = n := Nat.mod_eq_of_lt (by omega)
  simp [this, h]

@[simp] theorem ok_bind {α β : Type} (a : α) (f : α → Except Fault β) :
    (Except.ok a >>= f) = f a := rfl

@[simp] theorem error_bind {α β : Type} (e : Fault) (f : α → Except Fault β) :
    ((Except.error e : Except Fault α) >>= f) = Except.error e := rfl

@[simp] theorem pure_eq_ok {α : Type} (a : α) : (pure a : Except Fault α) = Except.ok a := rfl

theorem readAt_of_getElem? {α : Type} {xs : List α} {i : Nat} {a : α} (h : xs[i]? = some a) :
    readAt xs i = .ok a := by
  simp [readAt, h]

theorem writeAt_of_lt {α : Type} {xs : List α} {i : Nat} (a : α) (h : i < xs.length) :
    writeAt xs i a = .ok (xs.set i a) := by
  simp [writeAt, h]

/-! ### Heap numbering -/

theorem InSub.refl (v : Nat) : InSub v v := ⟨0, by simp⟩

theorem InSub.of_left {v u : Nat} (h : InSub (2 * v + 1) u) : InSub v u := by
  obtain ⟨d, hd⟩ := h
  refine ⟨d + 1, ?_⟩
  rw [pow_succ, ← Nat.div_div_eq_div_mul, hd]; omega

theorem InSub.of_right {v u : Nat} (h : InSub (2 * v + 2) u) : InSub v u := by
  obtain ⟨d, hd⟩ := h
  refine ⟨d + 1, ?_⟩
  rw [pow_succ, ← Nat.div_div_eq_div_mul, hd]; omega

theorem InSub.le {v u : Nat} (h : InSub v u) : v ≤ u := by
  obtain ⟨d, hd⟩ := h
  have := Nat.div_le_self (u + 1) (2 ^ d)
  omega

theorem div_pow_lt_of_lt {a d e : Nat} (h : d < e) : a / 2 ^ e ≤ a / 2 ^ d / 2 := by
  obtain ⟨c, rfl⟩ : ∃ c, e = d + 1 + c := ⟨e - d - 1, by omega⟩
  rw [pow_add, pow_succ, ← Nat.div_div_eq_div_mul, ← Nat.div_div_eq_div_mul]
  exact Nat.div_le_self _ _

theorem InSub.disjoint {v u : Nat} (h1 : InSub (2 * v + 1) u) (h2 : InSub (2 * v + 2) u) :
    False := by
  obtain ⟨d, hd⟩ := h1
  obtain ⟨e, he⟩ := h2
  rcases Nat.lt_trichotomy d e with h | h | h
  · have := div_pow_lt_of_lt (a := u + 1) h
    omega
  · subst h; omega
  · have := div_pow_lt_of_lt (a := u + 1) h
    omega

theorem Covers.inSub {v tl tr u l r : Nat} (h : Covers v tl tr u l r) : InSub v u := by
  induction h with
  | self v tl tr => exact InSub.refl v
  | left _ _ ih => exact ih.of_left
  | right _ _ ih => exact ih.of_right

/-! ### Size bookkeeping -/

theorem Fits.root {N : Nat} (hN : 1 ≤ N) : Fits N 0 (N - 1) :=
  ⟨1, by omega, by omega, by omega, by omega⟩

theorem Fits.lt {N v d : Nat} (h : Fits N v d) : v + 1 < 4 * N := by
  obtain ⟨k, h1, h2, h3, h4⟩ := h
  omega

theorem Fits.child {N v d : Nat} (d' : Nat) (h : Fits N v d) (hd : 1 ≤ d) (hd' : 2 * d' ≤ d) :
    Fits N (2 * v + 1) d' ∧ Fits N (2 * v + 2) d' := by
  obtain ⟨k, h1, h2, h3, h4⟩ := h
  have hk : k ≤ d * k := Nat.le_mul_of_pos_left k hd
  have hm : (2 * d') * k ≤ d * k := Nat.mul_le_mul_right k hd'
  have he : d' * (2 * k) = (2 * d') * k := by ring
  exact ⟨⟨2 * k, by omega, by omega, by omega, by omega⟩,
    ⟨2 * k, by omega, by omega, by omega, by omega⟩⟩

theorem build_segtree_spec (data : List Nat) (N : Nat) (hlen : data.length = N)
    (hN : N < 1152921504606846976) :
    ∀ fuel tree v tl tr, tl ≤ tr → tr < N → tr - tl < fuel → Fits N v (tr - tl) →
      tree.length = 4 * N →
      ∃ t, seg_tree_sln.build_segtree data fuel tree v tl tr = .ok t ∧ t.length = 4 * N ∧
        (∀ u, ¬ InSub v u → t[u]? = tree[u]?) ∧
        (∀ u l r, Covers v tl tr u l r → t[u]? = some (data.getD ((l + r) / 2) 0)) := by
  intro fuel
  induction fuel with
  | zero => intro tree v tl tr _ _ h; omega
  | succ fuel ih =>
    intro tree v tl tr h1 h2 h3 hf ht
    have hv := hf.lt
    unfold seg_tree_sln.build_segtree
    by_cases heq : tl = tr
    · subst heq
      simp only [if_true]
      rw [readAt_of_lt data tl (by omega)]
      simp only [ok_bind]
      rw [writeAt_of_lt _ (by omega)]
      refine ⟨_, rfl, by simp [ht], ?_, ?_⟩
      · intro u hu
        have : v ≠ u := fun e => hu (e ▸ InSub.refl v)
        exact List.getElem?_set_ne this
      · intro u l r hc
        cases hc with
        | self =>
          have : (tl + tl) / 2 = tl := by omega
          rw [this, List.getElem?_set_self (by omega)]
        | left hne _ => exact absurd rfl hne
        | right hne _ => exact absurd rfl hne
    · simp only [heq, if_false]
      have hlt : tl < tr := by omega
      have htm : wrap64 (tl + tr) / 2 = (tl + tr) / 2 := by rw [wrap64_of_lt (by omega)]
      have hl : wrap64 (2 * v + 1) = 2 * v + 1 := wrap64_of_lt (by omega)
      have hr : wrap64 (2 * v + 2) = 2 * v + 2 := wrap64_of_lt (by omega)
      have hm1 : wrap64 ((tl + tr) / 2 + 1) = (tl + tr) / 2 + 1 := wrap64_of_lt (by omega)
      rw [htm, hl, hr, hm1]
      have hcl := (Fits.child ((tl + tr) / 2 - tl) hf (by omega) (by omega)).1
      have hcr := (Fits.child (tr - ((tl + tr) / 2 + 1)) hf (by omega) (by omega)).2
      obtain ⟨t1, e1, len1, fr1, nd1⟩ :=
        ih tree (2 * v + 1) tl ((tl + tr) / 2) (by omega) (by omega) (by omega) hcl ht
      obtain ⟨t2, e2, len2, fr2, nd2⟩ :=
        ih t1 (2 * v + 2) ((tl + tr) / 2 + 1) tr (by omega) (by omega) (by omega) hcr len1
      rw [e1]; simp only [ok_bind]
      rw [e2]; simp only [ok_bind]
      rw [readAt_of_lt data _ (by omega)]; simp only [ok_bind]
      rw [writeAt_of_lt _ (by omega)]
      refine ⟨_, rfl, by simp [len2], ?_, ?_⟩
      · intro u hu
        have hne : v ≠ u := fun e => hu (e ▸ InSub.refl v)
        rw [List.getElem?_set_ne hne, fr2 u (fun h => hu h.of_right),
          fr1 u (fun h => hu h.of_left)]
      · intro u l r hc
        cases hc with
        | self =>
          rw [List.getElem?_set_self (by omega)]
        | left _ hc =>
          have hin := hc.inSub
          have hne : v ≠ u := by have := hin.le; omega
          rw [List.getElem?_set_ne hne, fr2 u (fun h => InSub.disjoint hin h)]
          exact nd1 u l r hc
        | right _ hc =>
          have hin := hc.inSub
          have hne : v ≠ u := by have := hin.le; omega
          rw [List.getElem?_set_ne hne]
          exact nd2 u l r hc

theorem sub64_one {N : Nat} (h1 : 1 ≤ N) (h2 : N < 18446744073709551616) : sub64 N 1 = N - 1 := by
  unfold sub64 wrap64
  omega

theorem lower_bound_spec (data tree : List Nat) (N x p : Nat) (hlen : data.length = N)
    (hN : N < 1152921504606846976) (hp : Thresh data x p) :
    ∀ fuel v tl tr, tl ≤ tr → tr < N → tr - tl ≤ fuel → Fits N v (tr - tl) →
      (∀ u l r, Covers v tl tr u l r → tree[u]? = some (data.getD ((l + r) / 2) 0)) →
      tl ≤ p → p ≤ tr →
      seg_tree_sln.lower_bound tree x fuel v tl tr = .ok p := by
  intro fuel
  induction fuel with
  | zero =>
    intro v tl tr h1 h2 h3 _ _ h5 h6
    have : tl = tr := by omega
    unfold seg_tree_sln.lower_bound
    simp only [this, if_true]
    congr 1; omega
  | succ fuel ih =>
    intro v tl tr h1 h2 h3 hf hnode h5 h6
    have hv := hf.lt
    unfold seg_tree_sln.lower_bound
    by_cases heq : tl = tr
    · simp only [heq, if_true]
      congr 1; omega
    · simp only [heq, if_false]
      have htm : wrap64 (tl + tr) / 2 = (tl + tr) / 2 := by rw [wrap64_of_lt (by omega)]
      have hl : wrap64 (2 * v + 1) = 2 * v + 1 := wrap64_of_lt (by omega)
      have hr : wrap64 (2 * v + 2) = 2 * v + 2 := wrap64_of_lt (by omega)
      have hm1 : wrap64 ((tl + tr) / 2 + 1) = (tl + tr) / 2 + 1 := wrap64_of_lt (by omega)
      rw [htm, hl, hr, hm1, readAt_of_getElem? (hnode v tl tr (Covers.self v tl tr))]
      simp only [ok_bind]
      have hcl := (Fits.child ((tl + tr) / 2 - tl) hf (by omega) (by omega)).1
      have hcr := (Fits.child (tr - ((tl + tr) / 2 + 1)) hf (by omega) (by omega)).2
      have hth := hp.2 ((tl + tr) / 2) (by omega)
      by_cases hc : x ≤ data.getD ((tl + tr) / 2) 0
      · simp only [hc, if_true]
        exact ih _ _ _ (by omega) (by omega) (by omega) hcl
          (fun u l r h => hnode u l r (Covers.left heq h)) h5 (by omega)
      · simp only [hc, if_false]
        exact ih _ _ _ (by omega) (by omega) (by omega) hcr
          (fun u l r h => hnode u l r (Covers.right heq h)) (by omega) h6

theorem seg_tree_new_spec (data : List Nat) (N fuel : Nat) (hlen : data.length = N)
    (h1 : 1 ≤ N) (hN : N < 1152921504606846976) (hfuel : N ≤ fuel) :
    ∃ tree, seg_tree_sln.new N fuel data = .ok { data := data, tree := tree } ∧
      tree.length = 4 * N ∧
      (∀ u l r, Covers 0 0 (N - 1) u l r → tree[u]? = some (data.getD ((l + r) / 2) 0)) := by
  unfold seg_tree_sln.new
  rw [sub64_one h1 (by omega), wrap64_of_lt (by omega)]
  obtain ⟨t, e, len, _, nd⟩ := build_segtree_spec data N hlen hN fuel (List.replicate (4 * N) 0)
    0 0 (N - 1) (by omega) (by omega) (by omega) (Fits.root h1) (by simp)
  exact ⟨t, by simp only [e]; rfl, len, nd⟩

theorem seg_tree_get_spec (data tree : List Nat) (N fuel x p : Nat) (hlen : data.length = N)
    (h1 : 1 ≤ N) (hN : N < 1152921504606846976) (hfuel : N ≤ fuel) (hp : Thresh data x p)
    (hnode : ∀ u l r, Covers 0 0 (N - 1) u l r → tree[u]? = some (data.getD ((l + r) / 2) 0)) :
    seg_tree_sln.get N fuel { data := data, tree := tree } x = .ok p := by
  unfold seg_tree_sln.get
  rw [sub64_one h1 (by omega)]
  simp only
  rw [readAt_of_lt data (N - 1) (by omega)]
  simp only [ok_bind]
  have hth := hp.2 (N - 1) (by omega)
  have hpl := hp.1
  by_cases hc : x > data.getD (N - 1) 0
  · simp only [hc, if_true, pure_eq_ok]
    congr 1; omega
  · simp only [hc, if_false]
    exact lower_bound_spec data tree N x p hlen hN hp fuel 0 0 (N - 1) (by omega) (by omega)
      (by omega) (Fits.root h1) hnode (by omega) (by omega)

/-! ### Layers: construction -/

theorem lt_ceilDiv_iff {P : Nat} (hP : 1 ≤ P) (j n : Nat) :
    j < (n + P - 1) / P ↔ j * P < n := by
  rw [Nat.lt_iff_add_one_le, Nat.le_div_iff_mul_le (by omega), Nat.add_mul]
  omega

theorem length_sampled (P : Nat) (xs : List Nat) :
    (sampled P xs).length = (xs.length + P - 1) / P := by
  simp [sampled]

theorem length_sampled_le {P : Nat} (hP : 1 ≤ P) (xs : List Nat) :
    (sampled P xs).length ≤ xs.length := by
  rw [length_sampled]
  by_contra h
  have := (lt_ceilDiv_iff hP xs.length xs.length).1 (by omega)
  have : xs.length * 1 ≤ xs.length * P := Nat.mul_le_mul_left _ hP
  omega

theorem getD_sampled {P : Nat} (xs : List Nat) (j : Nat) (hj : j < (sampled P xs).length) :
    (sampled P xs).getD j 0 = xs.getD (j * P) 0 := by
  have hj' := hj
  rw [length_sampled] at hj'
  rw [List.getD_eq_getElem _ _ hj]
  simp [sampled]

/-- The part of `sampled P xs` from its `j`-th entry on. -/
theorem sampled_eq_take_append {P : Nat} (xs : List Nat) (j : Nat)
    (hj : j ≤ (xs.length + P - 1) / P) :
    sampled P xs = (List.range j).map (fun i => xs.getD (i * P) 0) ++
      (List.range' j ((xs.length + P - 1) / P - j)).map (fun i => xs.getD (i * P) 0) := by
  unfold sampled
  rw [← List.map_append]
  congr 1
  rw [List.range_eq_range', List.range_eq_range']
  have := List.range'_append 0 j ((xs.length + P - 1) / P - j) 1
  simp only [Nat.one_mul, Nat.zero_add] at this
  rw [this]
  congr 1; omega

theorem fill_spec (P layer n : Nat) (hP : 1 ≤ P) (hP64 : P < 18446744073709551616)
    (hn : n < 9223372036854775808) (hlayer : layer + 1 < 18446744073709551616)
    (src : List Nat) (hsrc : src.length ≤ n) :
    ∀ fuel j layers dst, (src.length + P - 1) / P - j ≤ fuel → j ≤ (src.length + P - 1) / P →
      layers[layer]? = some src → layers[layer + 1]? = some dst →
      ∃ ls, layers_sln.fill P layer fuel (j * P) layers = .ok ls ∧ ls.length = layers.length ∧
        ls[layer + 1]? = some (dst ++
          (List.range' j ((src.length + P - 1) / P - j)).map (fun i => src.getD (i * P) 0)) ∧
        ∀ k, k ≠ layer + 1 → ls[k]? = layers[k]? := by
  intro fuel
  induction fuel with
  | zero =>
    intro j layers dst hf hj hs hd
    have hj' : ¬ j * P < src.length := by
      rw [← lt_ceilDiv_iff hP]; omega
    unfold layers_sln.fill
    rw [readAt_of_getElem? hs]
    simp only [ok_bind, hj', if_false, pure_eq_ok]
    refine ⟨layers, rfl, rfl, ?_, fun _ _ => rfl⟩
    have : (src.length + P - 1) / P - j = 0 := by omega
    simp [this, hd]
  | succ fuel ih =>
    intro j layers dst hf hj hs hd
    unfold layers_sln.fill
    rw [readAt_of_getElem? hs]
    simp only [ok_bind]
    by_cases hlt : j * P < src.length
    · have hjlt : j < (src.length + P - 1) / P := (lt_ceilDiv_iff hP _ _).2 hlt
      simp only [hlt, if_true]
      rw [readAt_of_lt src _ hlt, wrap64_of_lt hlayer, readAt_of_getElem? hd]
      simp only [ok_bind]
      have hlen : layer + 1 < layers.length := by
        by_contra h
        rw [List.getElem?_eq_none (by omega)] at hd
        cases hd
      rw [writeAt_of_lt _ hlen]
      simp only [ok_bind]
      have hwrap : wrap64 (j * P + P) = (j + 1) * P := by
        rw [wrap64_of_lt, Nat.add_mul, Nat.one_mul]
        rcases Nat.eq_zero_or_pos j with h0 | h0
        · subst h0; omega
        · have : 1 * P ≤ j * P := Nat.mul_le_mul_right P h0
          omega
      rw [hwrap]
      obtain ⟨ls, e, hl, hnew, hold⟩ := ih (j + 1) (layers.set (layer + 1) (dst ++ [src.getD (j * P) 0]))
        (dst ++ [src.getD (j * P) 0]) (by omega) (by omega)
        (by rw [List.getElem?_set_ne (by omega)]; exact hs)
        (by rw [List.getElem?_set_self hlen])
      refine ⟨ls, e, by simpa using hl, ?_, ?_⟩
      · rw [hnew]
        have hsplit : (src.length + P - 1) / P - j = ((src.length + P - 1) / P - (j + 1)) + 1 := by
          omega
        rw [hsplit, List.range'_succ]
        simp
      · intro k hk
        rw [hold k hk, List.getElem?_set_ne (by omega)]
    · simp only [hlt, if_false, pure_eq_ok]
      have hjge : ¬ j < (src.length + P - 1) / P := fun h => hlt ((lt_ceilDiv_iff hP _ _).1 h)
      refine ⟨layers, rfl, rfl, ?_, fun _ _ => rfl⟩
      have : (src.length + P - 1) / P - j = 0 := by omega
      simp [this, hd]

theorem fill_sampled (P layer n fuel : Nat) (hP : 1 ≤ P) (hP64 : P < 18446744073709551616)
    (hn : n < 9223372036854775808) (hlayer : layer + 1 < 18446744073709551616)
    (src : List Nat) (hsrc : src.length ≤ n) (hfuel : n ≤ fuel) (layers : List (List Nat))
    (hs : layers[layer]? = some src) (hd : layers[layer + 1]? = some []) :
    ∃ ls, layers_sln.fill P layer fuel 0 layers = .ok ls ∧ ls.length = layers.length ∧
      ls[layer + 1]? = some (sampled P src) ∧ ∀ k, k ≠ layer + 1 → ls[k]? = layers[k]? := by
  have hle := length_sampled_le hP src
  rw [length_sampled] at hle
  obtain ⟨ls, e, hl, hnew, hold⟩ := fill_spec P layer n hP hP64 hn hlayer src hsrc fuel 0 layers []
    (by rw [Nat.sub_zero]; exact le_trans hle (le_trans hsrc hfuel)) (Nat.zero_le _) hs hd
  refine ⟨ls, by simpa using e, hl, ?_, hold⟩
  rw [hnew, sampled_eq_take_append src 0 (Nat.zero_le _)]
  simp

theorem build_spec (P L n inner : Nat) (hP : 1 ≤ P) (hP64 : P < 18446744073709551616)
    (hn : n < 9223372036854775808) (hL : L < 18446744073709551616) (hinner : n ≤ inner) :
    ∀ fuel layer layers, L - 1 - layer ≤ fuel → layer < L → layers.length = L →
      (∀ k, layer < k → k < L → layers[k]? = some []) →
      (∀ (k : Nat) (row : List Nat), layers[k]? = some row → row.length ≤ n) →
      ∃ ls, layers_sln.build P L inner fuel layer layers = .ok ls ∧ ls.length = L ∧
        (∀ k, k ≤ layer → ls[k]? = layers[k]?) ∧
        (∀ k, layer ≤ k → k + 1 < L →
          ∃ row, ls[k]? = some row ∧ ls[k + 1]? = some (sampled P row)) ∧
        (∀ (k : Nat) (row : List Nat), ls[k]? = some row → row.length ≤ n) := by
  intro fuel
  induction fuel with
  | zero =>
    intro layer layers hf hl hlen _ hrow
    unfold layers_sln.build
    rw [wrap64_of_lt (by omega)]
    have : ¬ layer + 1 < L := by omega
    simp only [this, if_false, pure_eq_ok]
    exact ⟨layers, rfl, hlen, fun _ _ => rfl, fun k h1 h2 => by omega, hrow⟩
  | succ fuel ih =>
    intro layer layers hf hl hlen hempty hrow
    unfold layers_sln.build
    rw [wrap64_of_lt (by omega)]
    by_cases hc : layer + 1 < L
    · simp only [hc, if_true]
      have hsrc : layers[layer]? = some (layers[layer]) := List.getElem?_eq_getElem (by omega)
      obtain ⟨ls1, e1, len1, new1, old1⟩ := fill_sampled P layer n inner hP hP64 hn (by omega)
        _ (hrow _ _ hsrc) hinner layers hsrc (hempty _ (by omega) hc)
      rw [e1]; simp only [ok_bind]
      obtain ⟨ls, e, len, low, up, rows⟩ := ih (layer + 1) ls1 (by omega) hc (by omega)
        (fun k h1 h2 => by rw [old1 k (by omega)]; exact hempty k (by omega) h2)
        (fun k row h => by
          by_cases hk : k = layer + 1
          · subst hk
            rw [new1] at h
            cases h
            exact le_trans (length_sampled_le hP _) (hrow _ _ hsrc)
          · rw [old1 k hk] at h
            exact hrow k row h)
      refine ⟨ls, e, len, ?_, ?_, rows⟩
      · intro k hk
        rw [low k (by omega), old1 k (by omega)]
      · intro k hk1 hk2
        rcases Nat.eq_or_lt_of_le hk1 with h | h
        · subst h
          exact ⟨_, by rw [low _ (by omega), old1 _ (by omega)]; exact hsrc,
            by rw [low _ (le_refl _), new1]⟩
        · exact up k (by omega) hk2
    · simp only [hc, if_false, pure_eq_ok]
      exact ⟨layers, rfl, hlen, fun _ _ => rfl, fun k h1 h2 => by omega, hrow⟩

theorem layers_new_spec (P L fuel : Nat) (data : List Nat) (hP : 1 ≤ P)
    (hP64 : P < 18446744073709551616) (hn : data.length < 9223372036854775808)
    (hL1 : 1 ≤ L) (hL : L < 18446744073709551616) (hf1 : data.length ≤ fuel) (hf2 : L ≤ fuel) :
    ∃ ls, layers_sln.new P L fuel data = .ok { layers := ls } ∧ Layered P L data ls := by
  unfold layers_sln.new
  simp only
  rw [writeAt_of_lt _ (by simpa using hL1)]
  simp only [ok_bind]
  obtain ⟨ls, e, len, low, up, rows⟩ := build_spec P L data.length fuel hP hP64 hn hL hf1 fuel 0
    ((List.replicate L []).set 0 data) (by omega) (by omega) (by simp)
    (fun k h1 h2 => by
      rw [List.getElem?_set_ne (by omega), List.getElem?_eq_getElem (by simpa using h2)]
      simp)
    (fun k row h => by
      by_cases hk : k = 0
      · subst hk
        rw [List.getElem?_set_self (by simpa using hL1)] at h
        cases h; exact le_refl _
      · rw [List.getElem?_set_ne (by omega)] at h
        have hk2 : k < L := by
          by_contra hge
          rw [List.getElem?_eq_none (by simp; omega)] at h
          cases h
        rw [List.getElem?_eq_getElem (by simpa using hk2)] at h
        simp at h
        subst h
        simp)
  refine ⟨ls, by rw [e]; rfl, len, ?_, fun k hk => up k (Nat.zero_le _) hk, rows⟩
  rw [low 0 (le_refl _), List.getElem?_set_self (by simpa using hL1)]

/-! ### Layers: query -/

theorem Thresh.sampled {P : Nat} (hP : 1 ≤ P) {row : List Nat} {x p : Nat} (h : Thresh row x p) :
    Thresh (sampled P row) x ((p + P - 1) / P) := by
  refine ⟨?_, ?_⟩
  · rw [length_sampled]
    exact Nat.div_le_div_right (by have := h.1; omega)
  · intro j hj
    rw [getD_sampled row j hj]
    rw [length_sampled] at hj
    have hjP := (lt_ceilDiv_iff hP j row.length).1 hj
    exact (h.2 (j * P) hjP).trans (lt_ceilDiv_iff hP j p).symm

theorem layerThresh_step {P : Nat} (hP : 1 ≤ P) (p k : Nat) :
    (layerThresh P p (k + 1) - 1) * P ≤ layerThresh P p k - 1 := by
  show ((layerThresh P p k + P - 1) / P - 1) * P ≤ layerThresh P p k - 1
  generalize layerThresh P p k = q
  rcases Nat.eq_zero_or_pos ((q + P - 1) / P) with h | h
  · rw [h]; simp
  · have := (lt_ceilDiv_iff hP ((q + P - 1) / P - 1) q).1 (by omega)
    omega

theorem Layered.row_thresh {P L : Nat} {data : List Nat} {ls : List (List Nat)}
    (h : Layered P L data ls) (hP : 1 ≤ P) {x p : Nat} (hp : Thresh data x p) :
    ∀ k, k < L → ∃ row, ls[k]? = some row ∧ row.length ≤ data.length ∧
      Thresh row x (layerThresh P p k) := by
  intro k
  induction k with
  | zero => intro _; exact ⟨data, h.first, le_refl _, hp⟩
  | succ k ih =>
    intro hk
    obtain ⟨row, hr, _, ht⟩ := ih (by omega)
    obtain ⟨row', hr', hs⟩ := h.next k hk
    rw [hr] at hr'
    cases hr'
    exact ⟨_, hs, h.size_le _ _ hs, ht.sampled hP⟩

theorem scan_spec (row : List Nat) (x p : Nat) (h : Thresh row x p)
    (hlen : row.length < 9223372036854775808) :
    ∀ fuel index, index < 9223372036854775808 → p - 1 - index ≤ fuel →
      layers_sln.scan row x fuel index = .ok (if index + 1 < p then p - 1 else index) := by
  intro fuel
  have hpl := h.1
  induction fuel with
  | zero =>
    intro index hi hf
    unfold layers_sln.scan
    rw [wrap64_of_lt (by omega)]
    have hnp : ¬ index + 1 < p := by omega
    by_cases hc : index + 1 < row.length
    · simp only [hc, if_true]
      rw [readAt_of_lt row _ hc]
      simp only [ok_bind]
      have := h.2 (index + 1) hc
      have hx : ¬ row.getD (index + 1) 0 < x := by omega
      simp only [hx, hnp, if_false, pure_eq_ok]
    · simp only [hc, hnp, if_false, pure_eq_ok]
  | succ fuel ih =>
    intro index hi hf
    unfold layers_sln.scan
    rw [wrap64_of_lt (by omega)]
    by_cases hc : index + 1 < row.length
    · simp only [hc, if_true]
      rw [readAt_of_lt row _ hc]
      simp only [ok_bind]
      have := h.2 (index + 1) hc
      by_cases hx : row.getD (index + 1) 0 < x
      · have hlt : index + 1 < p := by omega
        simp only [hx, hlt, if_true]
        rw [ih (index + 1) (by omega) (by omega)]
        congr 1
        split <;> omega
      · have hnp : ¬ index + 1 < p := by omega
        simp only [hx, hnp, if_false, pure_eq_ok]
    · have hnp : ¬ index + 1 < p := by omega
      simp only [hc, hnp, if_false, pure_eq_ok]

theorem descend_spec (P fuel n : Nat) (ls : List (List Nat)) (x : Nat) (q : Nat → Nat)
    (hn : n < 9223372036854775808) (hfuel : n ≤ fuel) :
    ∀ m, (∀ k, k < m → ∃ row, ls[k]? = some row ∧ row.length ≤ n ∧ Thresh row x (q k)) →
      (∀ k, k + 1 < m → (q (k + 1) - 1) * P ≤ q k - 1) →
      ∀ index, (∀ k, m = k + 1 → index * P ≤ q k - 1) →
      layers_sln.descend P fuel ls x m index = .ok (if m = 0 then index else q 0 - 1) := by
  intro m
  induction m with
  | zero => intro _ _ index _; rfl
  | succ k ih =>
    intro hrows hq index hidx
    obtain ⟨row, hr, hlen, ht⟩ := hrows k (by omega)
    have hpl := ht.1
    have hi := hidx k rfl
    unfold layers_sln.descend
    simp only
    rw [wrap64_of_lt (by omega), readAt_of_getElem? hr]
    simp only [ok_bind]
    rw [scan_spec row x (q k) ht (by omega) fuel (index * P) (by omega) (by omega)]
    simp only [ok_bind]
    have hres : (if index * P + 1 < q k then q k - 1 else index * P) = q k - 1 := by
      split <;> omega
    rw [hres, ih (fun j hj => hrows j (by omega)) (fun j hj => hq j (by omega)) (q k - 1)
      (fun j hj => by subst hj; exact hq j (by omega))]
    congr 1
    rcases Nat.eq_zero_or_pos k with h0 | h0
    · subst h0; simp
    · have : k ≠ 0 := by omega
      simp [this]

theorem layerCount_le {L : Nat} (hL1 : 1 ≤ L) (hL : L < 18446744073709551616) :
    layerCount L ≤ L := by
  unfold layerCount toInt32
  rw [sub64_one hL1 hL]
  split <;> omega

theorem layerCount_pos {L : Nat} (hL1 : 1 ≤ L) (hL : L < 18446744073709551616)
    (hint : (L - 1) % 4294967296 < 2147483648) : 1 ≤ layerCount L := by
  unfold layerCount toInt32
  rw [sub64_one hL1 hL]
  simp only [hint, if_true]
  omega

theorem layers_get_spec (P L N fuel : Nat) (data : List Nat) (ls : List (List Nat)) (x p : Nat)
    (hP : 1 ≤ P) (hL1 : 1 ≤ L) (hL : L < 18446744073709551616)
    (hn1 : 1 ≤ data.length) (hnN : data.length ≤ N) (hn : data.length < 9223372036854775808)
    (hfuel : data.length ≤ fuel) (hls : Layered P L data ls) (hp : Thresh data x p) :
    layers_sln.get P L N fuel { layers := ls } x =
      .ok (if layerCount L = 0 then (if data.getD 0 0 < x then 1 else 0) else p) := by
  have hpl := hp.1
  have hdesc := descend_spec P fuel data.length ls x (layerThresh P p) hn hfuel (layerCount L)
    (fun k hk => hls.row_thresh hP hp k (by have := layerCount_le hL1 hL; omega))
    (fun k _ => layerThresh_step hP p k) 0 (fun k _ => by simp)
  unfold layers_sln.get
  simp only
  rw [show (toInt32 (sub64 L 1) + 1).toNat = layerCount L from rfl, hdesc]
  simp only [ok_bind]
  have hq0 : layerThresh P p 0 = p := rfl
  rw [hq0]
  by_cases hm : layerCount L = 0
  · simp only [hm, if_true]
    have h0 : (0 : Nat) < N := by omega
    simp only [h0, if_true]
    rw [readAt_of_getElem? hls.first]
    simp only [ok_bind]
    rw [readAt_of_lt data 0 (by omega)]
    simp only [ok_bind]
    split <;> rfl
  · simp only [hm, if_false]
    have h0 : p - 1 < N := by omega
    simp only [h0, if_true]
    rw [readAt_of_getElem? hls.first]
    simp only [ok_bind]
    rw [readAt_of_lt data (p - 1) (by omega)]
    simp only [ok_bind]
    have hth := hp.2 (p - 1) (by omega)
    by_cases hx : data.getD (p - 1) 0 < x
    · simp only [hx, if_true, pure_eq_ok]
      rw [wrap64_of_lt (by omega)]
      have hpp : p - 1 + 1 = p := by omega
      rw [hpp]
    · simp only [hx, if_false, pure_eq_ok]
      have hpp : p - 1 = p := by omega
      rw [hpp]

/-! ### Conversions -/

theorem intToSize_toInt32 {n : Nat} (h : n < 2147483648) : intToSize (toInt32 n) = n := by
  rw [toInt32_of_lt h]
  unfold intToSize
  omega

/-! ### First occurrence -/

theorem indexOf_eq_of_first (l : List Nat) (x : Nat) :
    ∀ i, i < l.length → l.getD i 0 = x → (∀ j, j < i → l.getD j 0 ≠ x) → l.indexOf x = i := by
  induction l with
  | nil => intro i hi; simp at hi
  | cons a t ih =>
    intro i hi hx hfirst
    cases i with
    | zero =>
      have : a = x := hx
      subst this
      simp
    | succ i =>
      have ha : a ≠ x := hfirst 0 (by omega)
      rw [List.indexOf_cons_ne _ ha]
      congr 1
      exact ih i (by simpa using hi) hx (fun j hj => hfirst (j + 1) (by omega))

theorem Thresh.indexOf {key : List Nat} {x p : Nat} (h : Thresh key x p)
    (hs : key.Sorted (· ≤ ·)) (hx : x ∈ key) : key.indexOf x = p := by
  obtain ⟨m, hm, hmx⟩ := List.getElem_of_mem hx
  have hmD : key.getD m 0 = x := by rw [List.getD_eq_getElem _ _ hm]; exact hmx
  have hpm : p ≤ m := by
    have := h.2 m hm
    omega
  have hp : p < key.length := by omega
  have hpx : x ≤ key.getD p 0 := by
    have := h.2 p hp
    omega
  have hle : key.getD p 0 ≤ key.getD m 0 := by
    rcases Nat.eq_or_lt_of_le hpm with e | e
    · rw [e]
    · rw [List.getD_eq_getElem _ _ hp, List.getD_eq_getElem _ _ hm]
      exact List.pairwise_iff_getElem.1 hs p m hp hm e
  apply indexOf_eq_of_first key x p hp (by omega)
  intro j hj
  have := (h.2 j (by omega)).2 hj
  omega

/-! ### solve -/

theorem solveLoop_exact (get : Nat → Except Fault Nat) (idx : Nat → Nat) (B : Nat)
    (hB : B < 9223372036854775808) :
    ∀ (requests : List Nat) (hash : Nat), hash < 1000000007 →
      (∀ q, q ∈ requests → get q = .ok (idx q) ∧ idx q ≤ B) →
      solveLoop get requests hash = .ok (rollingHashFrom hash (requests.map idx)) ∧
        rollingHashFrom hash (requests.map idx) < 1000000007 := by
  intro requests
  induction requests with
  | nil => intro hash hh _; exact ⟨rfl, hh⟩
  | cons q rest ih =>
    intro hash hh hget
    obtain ⟨hq, hqB⟩ := hget q (by simp)
    unfold solveLoop
    rw [hq]
    simp only [ok_bind]
    have h1 : wrap64 (hash * 13) = hash * 13 := wrap64_of_lt (by omega)
    have h2 : wrap64 (idx q + 1) = idx q + 1 := wrap64_of_lt (by omega)
    have h3 : wrap64 (hash * 13 + (idx q + 1)) = hash * 13 + (idx q + 1) :=
      wrap64_of_lt (by omega)
    rw [h1, h2, h3]
    have hlt : (hash * 13 + (idx q + 1)) % MOD < 1000000007 := Nat.mod_lt _ (by decide)
    exact ih _ hlt (fun q' hq' => hget q' (by simp [hq']))

/-! ### build_test -/

theorem take_succ_set (vec : List Nat) (index d : Nat) (h : index < vec.length) :
    (vec.set index d).take (index + 1) = vec.take index ++ [d] := by
  apply List.ext_getElem?
  intro i
  rcases Nat.lt_trichotomy i index with hi | hi | hi
  · rw [List.getElem?_take_of_lt (by omega), List.getElem?_set_ne (by omega),
      List.getElem?_append_left (by simp; omega), List.getElem?_take_of_lt hi]
  · subst hi
    rw [List.getElem?_take_of_lt (by omega), List.getElem?_set_self h,
      List.getElem?_append_right (by simp)]
    simp [Nat.min_eq_left (Nat.le_of_lt h)]
  · rw [List.getElem?_eq_none (by simp; omega), List.getElem?_eq_none (by simp; omega)]

theorem drawLoop_spec {σ : Type} (e : Engine σ) :
    ∀ (left index : Nat) (vec : List Nat) (gen : σ), vec.length = index + left →
      drawLoop e left index vec gen = (vec.take index ++ draws e left gen, afterDraws e left gen) := by
  intro left
  induction left with
  | zero =>
    intro index vec gen h
    have hle : vec.length ≤ index := by omega
    simp [drawLoop, draws, afterDraws, List.take_of_length_le hle]
  | succ left ih =>
    intro index vec gen h
    unfold drawLoop
    simp only [distrib]
    rw [ih (index + 1) _ _ (by simp; omega), take_succ_set vec index _ (by omega)]
    simp [draws, afterDraws]

theorem length_draws {σ : Type} (e : Engine σ) : ∀ (n : Nat) (gen : σ), (draws e n gen).length = n
  | 0, _ => rfl
  | n + 1, gen => by simp [draws, length_draws e n]

theorem build_test_spec {σ : Type} (e : Engine σ) (N M : Nat) (gen : σ) :
    build_test e N M gen =
      (((draws e N gen).insertionSort (· ≤ ·), draws e M (afterDraws e N gen)),
        afterDraws e M (afterDraws e N gen)) := by
  unfold build_test
  simp only
  rw [drawLoop_spec e N 0 _ gen (by simp), drawLoop_spec e M 0 _ _ (by simp)]
  simp

/-! ### The three variants on a key sequence with a threshold -/

theorem Thresh.lowerBoundCorrect {key : List Nat} {x p : Nat} (h : Thresh key x p) :
    LowerBoundCorrect key x p := by
  have hpl := h.1
  constructor
  · rcases Nat.eq_zero_or_pos p with h0 | h0
    · exact Or.inl h0
    · exact Or.inr ((h.2 (p - 1) (by omega)).2 (by omega))
  · rcases Nat.eq_or_lt_of_le hpl with e | e
    · exact Or.inl e
    · right
      have := h.2 p e
      omega

theorem binary_get_thresh {data : List Nat} {x p : Nat} (h : Thresh data x p)
    (hn : data.length < 2147483648) : (binary_search_sln.mk data).get x = (p : Int) := by
  have hpl := h.1
  unfold binary_search_sln.get
  rw [std_lower_bound_thresh data x p h, toInt32_of_lt (by omega)]

theorem solveLoop_ok (get : Nat → Except Fault Nat) :
    ∀ (requests : List Nat) (hash : Nat), (∀ q, q ∈ requests → ∃ i, get q = .ok i) →
      ∃ h, solveLoop get requests hash = .ok h := by
  intro requests
  induction requests with
  | nil => intro hash _; exact ⟨hash, rfl⟩
  | cons q rest ih =>
    intro hash hget
    obtain ⟨i, hi⟩ := hget q (by simp)
    unfold solveLoop
    rw [hi]
    simp only [ok_bind]
    exact ih _ (fun q' hq' => hget q' (by simp [hq']))


/-! ### The variants as instances of `Solution` -/

theorem binary_run_spec (data requests : List Nat) (hsorted : data.Sorted (· ≤ ·))
    (hn : data.length < 2147483648) :
    Solution.binary_search.run data requests =
      .ok (rollingHash (requests.map (fun x => data.countP (fun k => decide (k < x))))) := by
  have h := solveLoop_exact
    (fun x => (pure (intToSize ((binary_search_sln.mk data).get x)) : Except Fault Nat))
    (fun x => data.countP (fun k => decide (k < x))) data.length (by omega) requests 0
    (by decide)
    (fun q _ => by
      refine ⟨?_, List.countP_le_length _⟩
      show (pure (intToSize ((binary_search_sln.mk data).get q)) : Except Fault Nat) = _
      unfold binary_search_sln.get
      rw [std_lower_bound_thresh data q _ (sorted_thresh data q hsorted), intToSize_toInt32
        (lt_of_le_of_lt (List.countP_le_length _) hn)]
      rfl)
  exact h.1

theorem seg_tree_run_spec (N fuel : Nat) (data requests : List Nat)
    (hsorted : data.Sorted (· ≤ ·)) (hlen : data.length = N) (hN1 : 1 ≤ N)
    (hN : N < 1152921504606846976) (hfuel : N ≤ fuel) :
    (Solution.seg_tree N fuel).run data requests =
      .ok (rollingHash (requests.map (fun x => data.countP (fun k => decide (k < x))))) := by
  obtain ⟨tree, e, _, nd⟩ := seg_tree_new_spec data N fuel hlen hN1 hN hfuel
  have h := solveLoop_exact (seg_tree_sln.get N fuel { data := data, tree := tree })
    (fun x => data.countP (fun k => decide (k < x))) data.length (by omega) requests 0
    (by decide)
    (fun q _ => ⟨seg_tree_get_spec data tree N fuel q _ hlen hN1 hN hfuel
      (sorted_thresh data q hsorted) nd, List.countP_le_length _⟩)
  show (seg_tree_sln.new N fuel data >>= fun sln => solve (seg_tree_sln.get N fuel sln) requests)
    = _
  rw [e, ok_bind]
  exact h.1

theorem layers_run_spec (P L N fuel : Nat) (data requests : List Nat)
    (hP1 : 1 ≤ P) (hP : P < 18446744073709551616)
    (hL1 : 1 ≤ L) (hL : L < 18446744073709551616) (hint : (L - 1) % 4294967296 < 2147483648)
    (hsorted : data.Sorted (· ≤ ·)) (hlen : data.length = N) (hN1 : 1 ≤ N)
    (hN : N < 1152921504606846976) (hfuel : N ≤ fuel) (hfuelL : L ≤ fuel) :
    (Solution.layers P L N fuel).run data requests =
      .ok (rollingHash (requests.map (fun x => data.countP (fun k => decide (k < x))))) := by
  obtain ⟨ls, e, hls⟩ := layers_new_spec P L fuel data hP1 hP (by omega) hL1 hL (by omega) hfuelL
  have hc : layerCount L ≠ 0 := by
    have := layerCount_pos hL1 hL hint
    omega
  have h := solveLoop_exact (layers_sln.get P L N fuel { layers := ls })
    (fun x => data.countP (fun k => decide (k < x))) data.length (by omega) requests 0
    (by decide)
    (fun q _ => by
      rw [layers_get_spec P L N fuel data ls q _ hP1 hL1 hL (by omega) (by omega) (by omega)
        (by omega) hls (sorted_thresh data q hsorted)]
      refine ⟨?_, List.countP_le_length _⟩
      rw [if_neg hc])
  show (layers_sln.new P L fuel data >>= fun sln =>
    solve (layers_sln.get P L N fuel sln) requests) = _
  rw [e, ok_bind]
  exact h.1

/-! ### The trial loop -/

theorem build_test_sorted {σ : Type} (e : Engine σ) (N M : Nat) (gen : σ) :
    (build_test e N M gen).1.1.Sorted (· ≤ ·) ∧ (build_test e N M gen).1.1.length = N := by
  rw [build_test_spec]
  exact ⟨List.sorted_insertionSort _ _, by rw [List.length_insertionSort, length_draws]⟩

theorem trialLoop_spec {σ : Type} (e : Engine σ) (N M : Nat) (sol : Solution)
    (hsol : ∀ data : List Nat, data.Sorted (· ≤ ·) → data.length = N →
      ∃ s, sol.new data = .ok s ∧ ∀ x, ∃ i, sol.get s x = .ok i) :
    ∀ (left : Nat) (r : Report σ), ∃ r', trialLoop e N M sol left r = .ok r' ∧
      r'.inputs = r.inputs ++ trialInputs e N M left r.gen := by
  intro left
  induction left with
  | zero => intro r; exact ⟨r, rfl, by simp [trialInputs]⟩
  | succ left ih =>
    intro r
    obtain ⟨hs, hl⟩ := build_test_sorted e N M r.gen
    obtain ⟨s, es, hget⟩ := hsol _ hs hl
    obtain ⟨h, eh⟩ := solveLoop_ok (sol.get s) (build_test e N M r.gen).1.2 0
      (fun q _ => hget q)
    unfold trialLoop
    simp only
    rw [es]; simp only [ok_bind]
    rw [show solve (sol.get s) (build_test e N M r.gen).1.2 = .ok h from eh]
    simp only [ok_bind]
    obtain ⟨r', e', hin⟩ := ih
      { trials := r.trials ++ [{ data := (build_test e N M r.gen).1.1,
                                 requests := (build_test e N M r.gen).1.2, hash := h }],
        total_hash := wrap64 (wrap64 (r.total_hash * 1273) + h) % MOD,
        gen := (build_test e N M r.gen).2 }
    refine ⟨r', e', ?_⟩
    rw [hin]
    simp [Report.inputs, trialInputs]

theorem length_trialInputs {σ : Type} (e : Engine σ) (N M : Nat) :
    ∀ (t : Nat) (gen : σ), (trialInputs e N M t gen).length = t
  | 0, _ => rfl
  | t + 1, gen => by simp [trialInputs, length_trialInputs e N M t]

theorem test_case_spec {σ : Type} (e : Engine σ) (TESTS N M : Nat) (sol : Solution)
    (hsol : ∀ data : List Nat, data.Sorted (· ≤ ·) → data.length = N →
      ∃ s, sol.new data = .ok s ∧ ∀ x, ∃ i, sol.get s x = .ok i) (gen : σ) :
    ∃ r, test_case e TESTS N M sol gen = .ok r ∧
      r.inputs = trialInputs e N M TESTS (e.seed 42) := by
  obtain ⟨r, er, hin⟩ := trialLoop_spec e N M sol hsol TESTS
    { trials := [], total_hash := 0, gen := e.seed 42 }
  exact ⟨r, er, by rw [hin]; simp [Report.inputs]⟩

theorem binary_total (N : Nat) (data : List Nat) (_h1 : data.Sorted (· ≤ ·))
    (_h2 : data.length = N) :
    ∃ s, Solution.binary_search.new data = .ok s ∧
      ∀ x, ∃ i, Solution.binary_search.get s x = .ok i :=
  ⟨{ data := data }, rfl, fun _ => ⟨_, rfl⟩⟩

theorem seg_tree_total (N fuel : Nat) (hN1 : 1 ≤ N) (hN : N < 1152921504606846976)
    (hfuel : N ≤ fuel) (data : List Nat) (hsorted : data.Sorted (· ≤ ·))
    (hlen : data.length = N) :
    ∃ s, (Solution.seg_tree N fuel).new data = .ok s ∧
      ∀ x, ∃ i, (Solution.seg_tree N fuel).get s x = .ok i := by
  obtain ⟨tree, e, _, nd⟩ := seg_tree_new_spec data N fuel hlen hN1 hN hfuel
  exact ⟨_, e, fun x => ⟨_, seg_tree_get_spec data tree N fuel x _ hlen hN1 hN hfuel
    (sorted_thresh data x hsorted) nd⟩⟩

theorem layers_total (P L N fuel : Nat) (hP1 : 1 ≤ P) (hP : P < 18446744073709551616)
    (hL1 : 1 ≤ L) (hL : L < 18446744073709551616) (hN1 : 1 ≤ N)
    (hN : N < 1152921504606846976) (hfuel : N ≤ fuel) (hfuelL : L ≤ fuel)
    (data : List Nat) (hsorted : data.Sorted (· ≤ ·)) (hlen : data.length = N) :
    ∃ s, (Solution.layers P L N fuel).new data = .ok s ∧
      ∀ x, ∃ i, (Solution.layers P L N fuel).get s x = .ok i := by
  obtain ⟨ls, e, hls⟩ := layers_new_spec P L fuel data hP1 hP (by omega) hL1 hL (by omega) hfuelL
  exact ⟨_, e, fun x => ⟨_, layers_get_spec P L N fuel data ls x _ hP1 hL1 hL (by omega)
    (by omega) (by omega) (by omega) hls (sorted_thresh data x hsorted)⟩⟩

/-! ### The trial loop: hashes and generator states -/

theorem solveLoop_lt (get : Nat → Except Fault Nat) :
    ∀ (requests : List Nat) (hash h : Nat), hash < 1000000007 →
      solveLoop get requests hash = .ok h → h < 1000000007 := by
  intro requests
  induction requests with
  | nil =>
    intro hash h hh e
    cases e
    exact hh
  | cons q rest ih =>
    intro hash h _ e
    unfold solveLoop at e
    cases hq : get q with
    | error err => rw [hq] at e; cases e
    | ok i =>
      rw [hq] at e
      simp only [ok_bind] at e
      exact ih _ h (Nat.mod_lt _ (by decide)) e

theorem trialInputs_getElem? {σ : Type} (e : Engine σ) (N M : Nat) :
    ∀ (left : Nat) (gen : σ) (t : Nat), t < left →
      (trialInputs e N M left gen)[t]? =
        some (build_test e N M ((fun g => (build_test e N M g).2)^[t] gen)).1 := by
  intro left
  induction left with
  | zero => intro gen t h; omega
  | succ left ih =>
    intro gen t h
    cases t with
    | zero => simp [trialInputs]
    | succ t =>
      simp only [trialInputs, List.getElem?_cons_succ, Function.iterate_succ, Function.comp]
      exact ih _ t (by omega)

theorem trialStart_eq_iterate {σ : Type} (e : Engine σ) (N M : Nat) :
    ∀ t, trialStart e N M t = (fun g => (build_test e N M g).2)^[t] (e.seed 42) := by
  intro t
  induction t with
  | zero => rfl
  | succ t ih =>
    rw [Function.iterate_succ_apply', ← ih]
    rfl

theorem trialLoop_full {σ : Type} (e : Engine σ) (N M : Nat) (sol : Solution)
    (hsol : ∀ data : List Nat, data.Sorted (· ≤ ·) → data.length = N →
      ∃ s, sol.new data = .ok s ∧ ∀ x, ∃ i, sol.get s x = .ok i) :
    ∀ (left : Nat) (r : Report σ), r.total_hash < 1000000007 →
      ∃ (r' : Report σ) (ts : List Trial), trialLoop e N M sol left r = .ok r' ∧
        r'.trials = r.trials ++ ts ∧ ts.length = left ∧
        (∀ t, t ∈ ts → t.hash < 1000000007) ∧
        r'.total_hash = crossHashFrom r.total_hash (ts.map (fun t => t.hash)) ∧
        r'.total_hash < 1000000007 ∧
        r'.gen = (fun g => (build_test e N M g).2)^[left] r.gen := by
  intro left
  induction left with
  | zero => intro r hr; exact ⟨r, [], rfl, by simp, rfl, by simp, rfl, hr, rfl⟩
  | succ left ih =>
    intro r hr
    obtain ⟨hs, hl⟩ := build_test_sorted e N M r.gen
    obtain ⟨s, es, hget⟩ := hsol _ hs hl
    obtain ⟨h, eh⟩ := solveLoop_ok (sol.get s) (build_test e N M r.gen).1.2 0
      (fun q _ => hget q)
    have hh : h < 1000000007 := solveLoop_lt (sol.get s) _ 0 h (by decide) eh
    have hw1 : wrap64 (r.total_hash * 1273) = r.total_hash * 1273 := wrap64_of_lt (by omega)
    have hw2 : wrap64 (r.total_hash * 1273 + h) = r.total_hash * 1273 + h :=
      wrap64_of_lt (by omega)
    have hlt : (r.total_hash * 1273 + h) % MOD < 1000000007 := Nat.mod_lt _ (by decide)
    unfold trialLoop
    simp only
    rw [es]; simp only [ok_bind]
    rw [show solve (sol.get s) (build_test e N M r.gen).1.2 = .ok h from eh]
    simp only [ok_bind]
    rw [hw1, hw2]
    obtain ⟨r', ts, e', htr, hlen, hhash, htot, hlt', hgen⟩ := ih
      { trials := r.trials ++ [{ data := (build_test e N M r.gen).1.1,
                                 requests := (build_test e N M r.gen).1.2, hash := h }],
        total_hash := (r.total_hash * 1273 + h) % MOD,
        gen := (build_test e N M r.gen).2 } hlt
    refine ⟨r', { data := (build_test e N M r.gen).1.1,
                  requests := (build_test e N M r.gen).1.2, hash := h } :: ts, e', ?_, ?_, ?_,
      ?_, hlt', ?_⟩
    · rw [htr]; simp
    · simp [hlen]
    · intro t ht
      rcases List.mem_cons.1 ht with h1 | h1
      · subst h1; exact hh
      · exact hhash t h1
    · rw [htot]
      simp [crossHashFrom, MOD]
    · rw [hgen]
      rfl

theorem test_case_full {σ : Type} (e : Engine σ) (TESTS N M : Nat) (sol : Solution)
    (hsol : ∀ data : List Nat, data.Sorted (· ≤ ·) → data.length = N →
      ∃ s, sol.new data = .ok s ∧ ∀ x, ∃ i, sol.get s x = .ok i) (gen : σ) :
    ∃ r, test_case e TESTS N M sol gen = .ok r ∧
      r.inputs = trialInputs e N M TESTS (e.seed 42) ∧
      r.trials.length = TESTS ∧
      (∀ t, t ∈ r.trials → t.hash < 1000000007) ∧
      r.total_hash = crossHash (r.trials.map (fun t => t.hash)) ∧
      r.total_hash < 1000000007 ∧
      r.gen = trialStart e N M TESTS := by
  obtain ⟨r, er, hin⟩ := test_case_spec e TESTS N M sol hsol gen
  obtain ⟨r', ts, e', htr, hlen, hhash, htot, hlt, hgen⟩ := trialLoop_full e N M sol hsol TESTS
    { trials := [], total_hash := 0, gen := e.seed 42 } (Nat.zero_lt_succ _)
  have hrr : r' = r := by
    have h1 : test_case e TESTS N M sol gen = .ok r' := e'
    rw [er] at h1
    cases h1
    rfl
  subst hrr
  have htr' : r'.trials = ts := by simpa using htr
  refine ⟨r', er, hin, by rw [htr', hlen], fun t ht => hhash t (htr' ▸ ht), ?_, hlt, ?_⟩
  · rw [htot, htr']; rfl
  · rw [hgen, trialStart_eq_iterate]

/-! ### Segment tree: the runs step by step -/

theorem readAt_ok_lt {α : Type} {xs : List α} {i : Nat} {a : α} (h : readAt xs i = .ok a) :
    i < xs.length := by
  unfold readAt at h
  by_contra hge
  rw [List.getElem?_eq_none (by omega)] at h
  cases h

theorem writeAt_ok {α : Type} {xs ys : List α} {i : Nat} {a : α}
    (h : writeAt xs i a = .ok ys) : i < xs.length ∧ ys.length = xs.length := by
  unfold writeAt at h
  by_cases hi : i < xs.length
  · rw [if_pos hi] at h
    cases h
    exact ⟨hi, by simp⟩
  · rw [if_neg hi] at h
    cases h

theorem bind_eq_ok {α β : Type} {m : Except Fault α} {f : α → Except Fault β} {b : β}
    (h : (m >>= f) = .ok b) : ∃ a, m = .ok a ∧ f a = .ok b := by
  cases m with
  | error e => cases h
  | ok a => exact ⟨a, rfl, h⟩

/-- A run of `build_segtree` that returns has written inside `tree` at every call. -/
theorem build_segtree_ok_calls (data : List Nat) :
    ∀ fuel tree v tl tr t, seg_tree_sln.build_segtree data fuel tree v tl tr = .ok t →
      t.length = tree.length ∧
      ∀ c, c ∈ seg_tree_sln.build_calls fuel v tl tr → c.1 < tree.length := by
  intro fuel
  induction fuel with
  | zero =>
    intro tree v tl tr t h
    cases h
  | succ fuel ih =>
    intro tree v tl tr t h
    unfold seg_tree_sln.build_segtree at h
    unfold seg_tree_sln.build_calls
    by_cases heq : tl = tr
    · simp only [heq, if_true] at h ⊢
      obtain ⟨d, _, hw⟩ := bind_eq_ok h
      obtain ⟨hv, hl⟩ := writeAt_ok hw
      refine ⟨hl, ?_⟩
      intro c hc
      rw [List.mem_singleton] at hc
      subst hc
      exact hv
    · simp only [heq, if_false] at h ⊢
      obtain ⟨t1, h1, h⟩ := bind_eq_ok h
      obtain ⟨t2, h2, h⟩ := bind_eq_ok h
      obtain ⟨d, _, hw⟩ := bind_eq_ok h
      obtain ⟨l1, c1⟩ := ih _ _ _ _ _ h1
      obtain ⟨l2, c2⟩ := ih _ _ _ _ _ h2
      obtain ⟨hv, hl⟩ := writeAt_ok hw
      refine ⟨by omega, ?_⟩
      intro c hc
      rcases List.mem_append.1 hc with hc | hc
      · rcases List.mem_append.1 hc with hc | hc
        · exact c1 c hc
        · have := c2 c hc
          omega
      · rw [List.mem_singleton] at hc
        subst hc
        omega

theorem getLast?_cons_of_ne {α : Type} (a : α) {l : List α} (h : l ≠ []) :
    (a :: l).getLast? = l.getLast? := by
  cases l with
  | nil => exact absurd rfl h
  | cons b t => simp [List.getLast?_cons_cons]

theorem lower_bound_states_ne_nil (tree : List Nat) (x : Nat) (fuel v tl tr : Nat) :
    seg_tree_sln.lower_bound_states tree x fuel v tl tr ≠ [] := by
  unfold seg_tree_sln.lower_bound_states
  by_cases heq : tl = tr
  · simp [heq]
  · simp only [heq, if_false]
    cases fuel with
    | zero => simp
    | succ fuel =>
      cases tree[v]? with
      | none => simp
      | some node => simp

/-- The loop of `lower_bound` returns `i` exactly when its list of states ends in
an exit state `(u, i, i)`. -/
theorem lower_bound_ok_iff (tree : List Nat) (x : Nat) :
    ∀ fuel v tl tr i, seg_tree_sln.lower_bound tree x fuel v tl tr = .ok i ↔
      ∃ u, (seg_tree_sln.lower_bound_states tree x fuel v tl tr).getLast? = some (u, i, i) := by
  intro fuel
  induction fuel with
  | zero =>
    intro v tl tr i
    unfold seg_tree_sln.lower_bound seg_tree_sln.lower_bound_states
    by_cases heq : tl = tr
    · subst heq
      simp only [if_true, List.getLast?_singleton]
      constructor
      · intro h; cases h; exact ⟨v, rfl⟩
      · rintro ⟨u, h⟩
        cases h; rfl
    · simp only [heq, if_false, List.getLast?_singleton]
      constructor
      · intro h; cases h
      · rintro ⟨u, h⟩
        cases h
        exact absurd rfl heq
  | succ fuel ih =>
    intro v tl tr i
    unfold seg_tree_sln.lower_bound seg_tree_sln.lower_bound_states
    by_cases heq : tl = tr
    · subst heq
      simp only [if_true, List.getLast?_singleton]
      constructor
      · intro h; cases h; exact ⟨v, rfl⟩
      · rintro ⟨u, h⟩
        cases h; rfl
    · simp only [heq, if_false]
      cases hv : tree[v]? with
      | none =>
        have hr : readAt tree v = .error .outOfBounds := by simp [readAt, hv]
        rw [hr]
        simp only [error_bind, List.getLast?_singleton]
        constructor
        · intro h; cases h
        · rintro ⟨u, h⟩
          cases h
          exact absurd rfl heq
      | some node =>
        rw [readAt_of_getElem? hv]
        simp only [ok_bind]
        by_cases hc : x ≤ node
        · simp only [hc, if_true]
          rw [getLast?_cons_of_ne _ (lower_bound_states_ne_nil _ _ _ _ _ _)]
          exact ih _ _ _ _
        · simp only [hc, if_false]
          rw [getLast?_cons_of_ne _ (lower_bound_states_ne_nil _ _ _ _ _ _)]
          exact ih _ _ _ _

theorem lower_bound_states_head (tree : List Nat) (x : Nat) (fuel v tl tr : Nat) :
    (seg_tree_sln.lower_bound_states tree x fuel v tl tr).head? = some (v, tl, tr) := by
  unfold seg_tree_sln.lower_bound_states
  by_cases heq : tl = tr
  · simp [heq]
  · simp only [heq, if_false]
    cases fuel with
    | zero => simp
    | succ fuel =>
      cases tree[v]? with
      | none => simp
      | some node => simp

/-- The run of the loop of `lower_bound` inside a tree of `4 * N` entries, from a
node that `Fits`: every state is a node reached from the start, lies inside the
tree and inside the window; `k` halvings bound the number of iterations; and a
budget of `k` iterations gives the result. -/
theorem lower_bound_run (tree : List Nat) (N x : Nat) (htree : tree.length = 4 * N)
    (hN : N < 1152921504606846976) :
    ∀ fuel v tl tr, tl ≤ tr → tr < N → Fits N v (tr - tl) →
      (∀ s, s ∈ seg_tree_sln.lower_bound_states tree x fuel v tl tr →
        Covers v tl tr s.1 s.2.1 s.2.2 ∧ s.1 < 4 * N ∧ s.2.1 ≤ s.2.2 ∧ tl ≤ s.2.1 ∧
          s.2.2 ≤ tr) ∧
      (∀ k, tr - tl + 1 ≤ 2 ^ k →
        (seg_tree_sln.lower_bound_states tree x fuel v tl tr).length ≤ k + 1) ∧
      (tr - tl + 1 ≤ 2 ^ fuel →
        ∃ i, seg_tree_sln.lower_bound tree x fuel v tl tr = .ok i ∧ tl ≤ i ∧ i ≤ tr) := by
  intro fuel
  induction fuel with
  | zero =>
    intro v tl tr h1 h2 hf
    have hv := hf.lt
    unfold seg_tree_sln.lower_bound seg_tree_sln.lower_bound_states
    by_cases heq : tl = tr
    · subst heq
      simp only [if_true]
      refine ⟨?_, fun k _ => by simp, fun _ => ⟨tl, rfl, le_refl _, le_refl _⟩⟩
      intro s hs
      rw [List.mem_singleton] at hs
      subst hs
      exact ⟨Covers.self _ _ _, by omega, le_refl _, le_refl _, le_refl _⟩
    · simp only [heq, if_false]
      refine ⟨?_, fun k _ => by simp, fun h => ?_⟩
      · intro s hs
        rw [List.mem_singleton] at hs
        subst hs
        exact ⟨Covers.self _ _ _, by omega, h1, le_refl _, le_refl _⟩
      · simp at h
        omega
  | succ fuel ih =>
    intro v tl tr h1 h2 hf
    have hv := hf.lt
    unfold seg_tree_sln.lower_bound seg_tree_sln.lower_bound_states
    by_cases heq : tl = tr
    · subst heq
      simp only [if_true]
      refine ⟨?_, fun k _ => by simp, fun _ => ⟨tl, rfl, le_refl _, le_refl _⟩⟩
      intro s hs
      rw [List.mem_singleton] at hs
      subst hs
      exact ⟨Covers.self _ _ _, by omega, le_refl _, le_refl _, le_refl _⟩
    · simp only [heq, if_false]
      have htm : wrap64 (tl + tr) / 2 = (tl + tr) / 2 := by rw [wrap64_of_lt (by omega)]
      have hl : wrap64 (2 * v + 1) = 2 * v + 1 := wrap64_of_lt (by omega)
      have hr : wrap64 (2 * v + 2) = 2 * v + 2 := wrap64_of_lt (by omega)
      have hm1 : wrap64 ((tl + tr) / 2 + 1) = (tl + tr) / 2 + 1 := wrap64_of_lt (by omega)
      have hnode : tree[v]? = some (tree[v]) := List.getElem?_eq_getElem (by omega)
      rw [htm, hl, hr, hm1, hnode, readAt_of_getElem? hnode]
      simp only [ok_bind]
      have hcl := (Fits.child ((tl + tr) / 2 - tl) hf (by omega) (by omega)).1
      have hcr := (Fits.child (tr - ((tl + tr) / 2 + 1)) hf (by omega) (by omega)).2
      obtain ⟨il1, il2, il3⟩ := ih (2 * v + 1) tl ((tl + tr) / 2) (by omega) (by omega) hcl
      obtain ⟨ir1, ir2, ir3⟩ := ih (2 * v + 2) ((tl + tr) / 2 + 1) tr (by omega) (by omega) hcr
      have hpow : ∀ k, tr - tl + 1 ≤ 2 ^ k → ∃ k', k = k' + 1 ∧
          (tl + tr) / 2 - tl + 1 ≤ 2 ^ k' ∧ tr - ((tl + tr) / 2 + 1) + 1 ≤ 2 ^ k' := by
        intro k hk
        cases k with
        | zero => simp at hk; omega
        | succ k' =>
          refine ⟨k', rfl, ?_, ?_⟩
          · rw [pow_succ] at hk
            generalize 2 ^ k' = K at hk ⊢
            omega
          · rw [pow_succ] at hk
            generalize 2 ^ k' = K at hk ⊢
            omega
      by_cases hc : x ≤ tree[v]
      · simp only [hc, if_true]
        refine ⟨?_, ?_, ?_⟩
        · intro s hs
          rcases List.mem_cons.1 hs with hs | hs
          · subst hs
            exact ⟨Covers.self _ _ _, by omega, h1, le_refl _, le_refl _⟩
          · obtain ⟨a, b, c, d, e⟩ := il1 s hs
            exact ⟨Covers.left heq a, b, c, d, by omega⟩
        · intro k hk
          obtain ⟨k', rfl, hk1, _⟩ := hpow k hk
          have := il2 k' hk1
          simp only [List.length_cons]
          omega
        · intro hk
          obtain ⟨k', hk', hk1, _⟩ := hpow (fuel + 1) hk
          have hfk : fuel = k' := by omega
          subst hfk
          obtain ⟨i, e, a, b⟩ := il3 hk1
          exact ⟨i, e, a, by omega⟩
      · simp only [hc, if_false]
        refine ⟨?_, ?_, ?_⟩
        · intro s hs
          rcases List.mem_cons.1 hs with hs | hs
          · subst hs
            exact ⟨Covers.self _ _ _, by omega, h1, le_refl _, le_refl _⟩
          · obtain ⟨a, b, c, d, e⟩ := ir1 s hs
            exact ⟨Covers.right heq a, b, c, by omega, e⟩
        · intro k hk
          obtain ⟨k', rfl, _, hk2⟩ := hpow k hk
          have := ir2 k' hk2
          simp only [List.length_cons]
          omega
        · intro hk
          obtain ⟨k', hk', _, hk2⟩ := hpow (fuel + 1) hk
          have hfk : fuel = k' := by omega
          subst hfk
          obtain ⟨i, e, a, b⟩ := ir3 hk2
          exact ⟨i, e, by omega, b⟩

/-- The window invariant of the descent: on a tree whose nodes hold the midpoint
keys, the threshold `p` of `x` stays inside the window of every state. -/
theorem lower_bound_states_window (data tree : List Nat) (N x p : Nat) (hlen : data.length = N)
    (hN : N < 1152921504606846976) (hp : Thresh data x p) :
    ∀ fuel v tl tr, tl ≤ tr → tr < N → Fits N v (tr - tl) →
      (∀ u l r, Covers v tl tr u l r → tree[u]? = some (data.getD ((l + r) / 2) 0)) →
      tl ≤ p → p ≤ tr →
      ∀ s, s ∈ seg_tree_sln.lower_bound_states tree x fuel v tl tr → s.2.1 ≤ p ∧ p ≤ s.2.2 := by
  intro fuel
  induction fuel with
  | zero =>
    intro v tl tr h1 h2 hf hnode h5 h6 s hs
    unfold seg_tree_sln.lower_bound_states at hs
    by_cases heq : tl = tr
    · simp only [heq, if_true, List.mem_singleton] at hs
      subst hs
      show tr ≤ p ∧ p ≤ tr
      exact ⟨by omega, h6⟩
    · simp only [heq, if_false, List.mem_singleton] at hs
      subst hs
      exact ⟨h5, h6⟩
  | succ fuel ih =>
    intro v tl tr h1 h2 hf hnode h5 h6 s hs
    have hv := hf.lt
    unfold seg_tree_sln.lower_bound_states at hs
    by_cases heq : tl = tr
    · simp only [heq, if_true, List.mem_singleton] at hs
      subst hs
      show tr ≤ p ∧ p ≤ tr
      exact ⟨by omega, h6⟩
    · simp only [heq, if_false] at hs
      have htm : wrap64 (tl + tr) / 2 = (tl + tr) / 2 := by rw [wrap64_of_lt (by omega)]
      have hl : wrap64 (2 * v + 1) = 2 * v + 1 := wrap64_of_lt (by omega)
      have hr : wrap64 (2 * v + 2) = 2 * v + 2 := wrap64_of_lt (by omega)
      have hm1 : wrap64 ((tl + tr) / 2 + 1) = (tl + tr) / 2 + 1 := wrap64_of_lt (by omega)
      rw [htm, hl, hr, hm1, hnode v tl tr (Covers.self v tl tr)] at hs
      simp only at hs
      have hcl := (Fits.child ((tl + tr) / 2 - tl) hf (by omega) (by omega)).1
      have hcr := (Fits.child (tr - ((tl + tr) / 2 + 1)) hf (by omega) (by omega)).2
      have hth := hp.2 ((tl + tr) / 2) (by omega)
      rcases List.mem_cons.1 hs with hs | hs
      · subst hs
        exact ⟨h5, h6⟩
      · by_cases hc : x ≤ data.getD ((tl + tr) / 2) 0
        · simp only [hc, if_true] at hs
          exact ih _ _ _ (by omega) (by omega) hcl
            (fun u l r h => hnode u l r (Covers.left heq h)) h5 (by omega) s hs
        · simp only [hc, if_false] at hs
          exact ih _ _ _ (by omega) (by omega) hcr
            (fun u l r h => hnode u l r (Covers.right heq h)) (by omega) h6 s hs

/-- The loop of `lower_bound` on any tree, from any node: the window shrinks in
every iteration, so a budget of `tr - tl` iterations is never used up. -/
theorem lower_bound_terminates (tree : List Nat) (x : Nat) :
    ∀ fuel v tl tr, tl ≤ tr → tr < 9223372036854775808 → tr - tl ≤ fuel →
      ((∃ i, seg_tree_sln.lower_bound tree x fuel v tl tr = .ok i ∧ tl ≤ i ∧ i ≤ tr) ∨
        seg_tree_sln.lower_bound tree x fuel v tl tr = .error .outOfBounds) := by
  intro fuel
  induction fuel with
  | zero =>
    intro v tl tr h1 _ h3
    have heq : tl = tr := by omega
    subst heq
    left
    unfold seg_tree_sln.lower_bound
    exact ⟨tl, by simp, le_refl _, le_refl _⟩
  | succ fuel ih =>
    intro v tl tr h1 h2 h3
    unfold seg_tree_sln.lower_bound
    by_cases heq : tl = tr
    · subst heq
      left
      exact ⟨tl, by simp, le_refl _, le_refl _⟩
    · simp only [heq, if_false]
      have htm : wrap64 (tl + tr) / 2 = (tl + tr) / 2 := by rw [wrap64_of_lt (by omega)]
      have hm1 : wrap64 ((tl + tr) / 2 + 1) = (tl + tr) / 2 + 1 := wrap64_of_lt (by omega)
      rw [htm, hm1]
      cases hv : tree[v]? with
      | none =>
        right
        simp [readAt, hv]
      | some node =>
        rw [readAt_of_getElem? hv]
        simp only [ok_bind]
        by_cases hc : x ≤ node
        · simp only [hc, if_true]
          rcases ih (wrap64 (2 * v + 1)) tl ((tl + tr) / 2) (by omega) (by omega) (by omega)
            with ⟨i, e, a, b⟩ | e
          · exact Or.inl ⟨i, e, a, by omega⟩
          · exact Or.inr e
        · simp only [hc, if_false]
          rcases ih (wrap64 (2 * v + 2)) ((tl + tr) / 2 + 1) tr (by omega) (by omega) (by omega)
            with ⟨i, e, a, b⟩ | e
          · exact Or.inl ⟨i, e, by omega, b⟩
          · exact Or.inr e

/-- From one state of the loop of `lower_bound` to the next the window stays
ordered and gets strictly narrower. -/
theorem lower_bound_states_chain (tree : List Nat) (x : Nat) :
    ∀ fuel v tl tr, tl ≤ tr → tr < 9223372036854775808 →
      List.Chain' (fun s s' : Nat × Nat × Nat => s'.2.1 ≤ s'.2.2 ∧ s'.2.2 - s'.2.1 < s.2.2 - s.2.1)
        (seg_tree_sln.lower_bound_states tree x fuel v tl tr) := by
  intro fuel
  induction fuel with
  | zero =>
    intro v tl tr _ _
    unfold seg_tree_sln.lower_bound_states
    by_cases heq : tl = tr
    · simp [heq]
    · simp [heq]
  | succ fuel ih =>
    intro v tl tr h1 h2
    unfold seg_tree_sln.lower_bound_states
    by_cases heq : tl = tr
    · simp [heq]
    · simp only [heq, if_false]
      have htm : wrap64 (tl + tr) / 2 = (tl + tr) / 2 := by rw [wrap64_of_lt (by omega)]
      have hm1 : wrap64 ((tl + tr) / 2 + 1) = (tl + tr) / 2 + 1 := wrap64_of_lt (by omega)
      rw [htm, hm1]
      cases hv : tree[v]? with
      | none => simp
      | some node =>
        simp only
        by_cases hc : x ≤ node
        · simp only [hc, if_true]
          rw [List.chain'_cons']
          refine ⟨?_, ih _ _ _ (by omega) (by omega)⟩
          intro s hs
          rw [lower_bound_states_head] at hs
          cases hs
          show tl ≤ (tl + tr) / 2 ∧ (tl + tr) / 2 - tl < tr - tl
          omega
        · simp only [hc, if_false]
          rw [List.chain'_cons']
          refine ⟨?_, ih _ _ _ (by omega) (by omega)⟩
          intro s hs
          rw [lower_bound_states_head] at hs
          cases hs
          show (tl + tr) / 2 + 1 ≤ tr ∧ tr - ((tl + tr) / 2 + 1) < tr - tl
          omega

/-! ### Layers: closed form of the construction -/

theorem eq_of_lt_iff {a b : Nat} (h : ∀ j, j < a ↔ j < b) : a = b := by
  rcases Nat.lt_trichotomy a b with hlt | heq | hgt
  · exact absurd ((h a).2 hlt) (Nat.lt_irrefl a)
  · exact heq
  · exact absurd ((h b).1 hgt) (Nat.lt_irrefl b)

theorem ceilDiv_ceilDiv {P Q : Nat} (hP : 1 ≤ P) (hQ : 1 ≤ Q) (n : Nat) :
    ((n + Q - 1) / Q + P - 1) / P = (n + Q * P - 1) / (Q * P) := by
  apply eq_of_lt_iff
  intro j
  have hQP : 1 ≤ Q * P := Nat.mul_pos hQ hP
  rw [lt_ceilDiv_iff hP, lt_ceilDiv_iff hQ, lt_ceilDiv_iff hQP, Nat.mul_assoc, Nat.mul_comm P Q]

theorem sampled_one (xs : List Nat) : sampled 1 xs = xs := by
  apply List.ext_getElem
  · simp [sampled]
  · intro i h1 h2
    have := getD_sampled (P := 1) xs i h1
    rw [List.getD_eq_getElem _ _ h1, Nat.mul_one, List.getD_eq_getElem _ _ h2] at this
    exact this

theorem sampled_sampled {P Q : Nat} (hP : 1 ≤ P) (hQ : 1 ≤ Q) (xs : List Nat) :
    sampled P (sampled Q xs) = sampled (Q * P) xs := by
  have hlen : (sampled P (sampled Q xs)).length = (sampled (Q * P) xs).length := by
    rw [length_sampled, length_sampled, length_sampled, ceilDiv_ceilDiv hP hQ]
  apply List.ext_getElem hlen
  intro i h1 h2
  have e1 := getD_sampled (P := P) (sampled Q xs) i h1
  have e2 := getD_sampled (P := Q * P) xs i h2
  rw [List.getD_eq_getElem _ _ h1] at e1
  rw [List.getD_eq_getElem _ _ h2] at e2
  rw [e1, e2]
  have hi : i * P < (sampled Q xs).length := by
    rw [length_sampled] at h1
    exact (lt_ceilDiv_iff hP i _).1 h1
  rw [getD_sampled xs (i * P) hi, Nat.mul_assoc, Nat.mul_comm P Q]

theorem sorted_sampled {P : Nat} (hP : 1 ≤ P) {xs : List Nat} (hs : xs.Sorted (· ≤ ·)) :
    (sampled P xs).Sorted (· ≤ ·) := by
  show List.Pairwise (· ≤ ·) (sampled P xs)
  rw [List.pairwise_iff_getElem]
  intro i j hi hj hij
  have ei := getD_sampled (P := P) xs i hi
  have ej := getD_sampled (P := P) xs j hj
  rw [List.getD_eq_getElem _ _ hi] at ei
  rw [List.getD_eq_getElem _ _ hj] at ej
  rw [ei, ej]
  rw [length_sampled] at hi hj
  have hiP := (lt_ceilDiv_iff hP i _).1 hi
  have hjP := (lt_ceilDiv_iff hP j _).1 hj
  have hlt : i * P < j * P := Nat.mul_lt_mul_of_pos_right hij hP
  rw [List.getD_eq_getElem _ _ hiP, List.getD_eq_getElem _ _ hjP]
  exact List.pairwise_iff_getElem.1 hs _ _ hiP hjP hlt

theorem Layered.row_eq {P L : Nat} {data : List Nat} {ls : List (List Nat)}
    (h : Layered P L data ls) (hP : 1 ≤ P) :
    ∀ k, k < L → ls[k]? = some (sampled (P ^ k) data) := by
  intro k
  induction k with
  | zero =>
    intro _
    rw [h.first, pow_zero, sampled_one]
  | succ k ih =>
    intro hk
    obtain ⟨row, hr, hs⟩ := h.next k hk
    rw [ih (by omega)] at hr
    cases hr
    rw [hs, sampled_sampled hP (Nat.one_le_pow _ _ hP), pow_succ]

/-! ### Layers: the query step by step -/

theorem scan_total (row : List Nat) (x : Nat) (hlen : row.length < 9223372036854775808) :
    ∀ fuel index, index < row.length → row.length - 1 - index ≤ fuel →
      ∃ i, layers_sln.scan row x fuel index = .ok i ∧ index ≤ i ∧ i < row.length := by
  intro fuel
  induction fuel with
  | zero =>
    intro index hi hf
    unfold layers_sln.scan
    rw [wrap64_of_lt (by omega)]
    have hc : ¬ index + 1 < row.length := by omega
    simp only [hc, if_false, pure_eq_ok]
    exact ⟨index, rfl, le_refl _, hi⟩
  | succ fuel ih =>
    intro index hi hf
    unfold layers_sln.scan
    rw [wrap64_of_lt (by omega)]
    by_cases hc : index + 1 < row.length
    · simp only [hc, if_true]
      rw [readAt_of_lt row _ hc]
      simp only [ok_bind]
      by_cases hx : row.getD (index + 1) 0 < x
      · simp only [hx, if_true]
        obtain ⟨i, e, a, b⟩ := ih (index + 1) hc (by omega)
        exact ⟨i, e, by omega, b⟩
      · simp only [hx, if_false, pure_eq_ok]
        exact ⟨index, rfl, le_refl _, hi⟩
    · simp only [hc, if_false, pure_eq_ok]
      exact ⟨index, rfl, le_refl _, hi⟩

/-- A run of the layer loop that returns went through all its layers, and its
result is the index after the last scan. -/
theorem descend_ok_states (P fuel : Nat) (ls : List (List Nat)) (x : Nat) :
    ∀ m index i, layers_sln.descend P fuel ls x m index = .ok i →
      (layers_sln.descend_states P fuel ls x m index).length = m ∧
      (((layers_sln.descend_states P fuel ls x m index).getLast?).map
        (fun st => st.2.2)).getD index = i := by
  intro m
  induction m with
  | zero =>
    intro index i h
    cases h
    exact ⟨rfl, rfl⟩
  | succ k ih =>
    intro index i h
    unfold layers_sln.descend at h
    simp only at h
    obtain ⟨row, hr, h⟩ := bind_eq_ok h
    obtain ⟨index', hs, h⟩ := bind_eq_ok h
    have hrow : ls[k]? = some row := by
      unfold readAt at hr
      cases hk : ls[k]? with
      | none => rw [hk] at hr; cases hr
      | some r => rw [hk] at hr; cases hr; rfl
    obtain ⟨hl, hlast⟩ := ih index' i h
    unfold layers_sln.descend_states
    rw [hrow]
    simp only
    rw [hs]
    simp only [List.length_cons, hl, true_and]
    cases hrest : layers_sln.descend_states P fuel ls x k index' with
    | nil =>
      rw [hrest] at hlast
      simpa using hlast
    | cons b t =>
      rw [hrest] at hlast
      rw [getLast?_cons_of_ne _ (List.cons_ne_nil b t)]
      exact hlast

theorem Layered.row_pos {P L : Nat} {data : List Nat} {ls : List (List Nat)}
    (h : Layered P L data ls) (hP : 1 ≤ P) (hn : 1 ≤ data.length) :
    ∀ k, k < L → ∃ row, ls[k]? = some row ∧ 0 < row.length ∧ row.length ≤ data.length := by
  intro k hk
  refine ⟨_, h.row_eq hP k hk, ?_, h.size_le _ _ (h.row_eq hP k hk)⟩
  rw [length_sampled]
  have := (lt_ceilDiv_iff (Nat.one_le_pow k P hP) 0 data.length).2 (by omega)
  exact this

/-- The layer loop of `get` on the layers of any key sequence, sorted or not:
it returns, and in every layer the index after `index *= P` and the index after
the scan are positions of that layer. -/
theorem descend_total (P L fuel : Nat) (data : List Nat) (ls : List (List Nat)) (x : Nat)
    (hls : Layered P L data ls) (hP : 1 ≤ P) (hn1 : 1 ≤ data.length)
    (hn : data.length < 9223372036854775808) (hfuel : data.length ≤ fuel) :
    ∀ m, m ≤ L → ∀ index,
      (∀ k, m = k + 1 → ∃ row, ls[k]? = some row ∧ index * P < row.length) →
      ∃ i, layers_sln.descend P fuel ls x m index = .ok i ∧ (m = 0 → i = index) ∧
        (1 ≤ m → i < data.length) ∧
        ∀ st, st ∈ layers_sln.descend_states P fuel ls x m index →
          ∃ row, ls[st.1]? = some row ∧ st.2.1 < row.length ∧ st.2.1 ≤ st.2.2 ∧
            st.2.2 < row.length := by
  intro m
  induction m with
  | zero =>
    intro _ index _
    exact ⟨index, rfl, fun _ => rfl, fun h => by omega, fun st hst => by
      simp [layers_sln.descend_states] at hst⟩
  | succ k ih =>
    intro hm index hpre
    obtain ⟨row, hr, hidx⟩ := hpre k rfl
    have hrl : row.length ≤ data.length := hls.size_le _ _ hr
    obtain ⟨index', hs, h1, h2⟩ := scan_total row x (by omega) fuel (index * P) hidx (by omega)
    have hnext : ∀ j, k = j + 1 → ∃ row', ls[j]? = some row' ∧ index' * P < row'.length := by
      intro j hj
      obtain ⟨rj, hrj, hsj⟩ := hls.next j (by omega)
      rw [← hj, hr] at hsj
      cases hsj
      rw [length_sampled] at h2
      exact ⟨rj, hrj, (lt_ceilDiv_iff hP _ _).1 h2⟩
    obtain ⟨i, e, hz, hpos, hst⟩ := ih (by omega) index' hnext
    unfold layers_sln.descend layers_sln.descend_states
    simp only
    rw [wrap64_of_lt (by omega), readAt_of_getElem? hr, hr]
    simp only [ok_bind]
    rw [hs]
    simp only [ok_bind]
    refine ⟨i, e, fun h => by omega, ?_, ?_⟩
    · intro _
      rcases Nat.eq_zero_or_pos k with h0 | h0
      · subst h0
        rw [hz rfl]
        rw [hls.first] at hr
        cases hr
        exact h2
      · exact hpos h0
    · intro st hmem
      rcases List.mem_cons.1 hmem with h | h
      · subst h
        exact ⟨row, hr, hidx, h1, h2⟩
      · exact hst st h

theorem layers_get_total (P L N fuel : Nat) (data : List Nat) (ls : List (List Nat)) (x : Nat)
    (hP : 1 ≤ P) (hL1 : 1 ≤ L) (hL : L < 18446744073709551616)
    (hlen : data.length = N) (hN1 : 1 ≤ N) (hN : N < 9223372036854775808)
    (hfuel : N ≤ fuel) (hls : Layered P L data ls) :
    ∃ index i, layers_sln.descend P fuel ls x (layerCount L) 0 = .ok index ∧ index < N ∧
      layers_sln.get P L N fuel { layers := ls } x = .ok i ∧ i ≤ N ∧
      ∀ st, st ∈ layers_sln.descend_states P fuel ls x (layerCount L) 0 →
        ∃ row, ls[st.1]? = some row ∧ st.2.1 < row.length ∧ st.2.1 ≤ st.2.2 ∧
          st.2.2 < row.length := by
  have hm := layerCount_le hL1 hL
  obtain ⟨index, e, hz, hpos, hst⟩ := descend_total P L fuel data ls x hls hP (by omega)
    (by omega) (by omega) (layerCount L) hm 0 (fun k hk => by
      obtain ⟨row, hr, hp, _⟩ := hls.row_pos hP (by omega) k (by omega)
      exact ⟨row, hr, by simpa using hp⟩)
  have hidx : index < N := by
    rcases Nat.eq_zero_or_pos (layerCount L) with h0 | h0
    · rw [hz h0]; omega
    · have := hpos h0
      omega
  unfold layers_sln.get
  simp only
  rw [show (toInt32 (sub64 L 1) + 1).toNat = layerCount L from rfl, e]
  simp only [ok_bind, hidx, if_true]
  rw [readAt_of_getElem? hls.first]
  simp only [ok_bind]
  rw [readAt_of_lt data index (by omega)]
  simp only [ok_bind]
  by_cases hx : data.getD index 0 < x
  · simp only [hx, if_true, pure_eq_ok]
    rw [wrap64_of_lt (by omega)]
    exact ⟨index, index + 1, rfl, hidx, rfl, by omega, hst⟩
  · simp only [hx, if_false, pure_eq_ok]
    exact ⟨index, index, rfl, hidx, rfl, by omega, hst⟩

theorem le_ceilDiv_mul {P : Nat} (hP : 1 ≤ P) (n : Nat) : n ≤ (n + P - 1) / P * P := by
  by_contra h
  have := (lt_ceilDiv_iff hP ((n + P - 1) / P) n).2 (by omega)
  omega

theorem layerThresh_gap {P : Nat} (hP : 1 ≤ P) (p k : Nat) :
    layerThresh P p k - 1 - (layerThresh P p (k + 1) - 1) * P ≤ P - 1 := by
  show layerThresh P p k - 1 - ((layerThresh P p k + P - 1) / P - 1) * P ≤ P - 1
  generalize layerThresh P p k = q
  have h := le_ceilDiv_mul hP q
  rcases Nat.eq_zero_or_pos ((q + P - 1) / P) with h0 | h0
  · rw [h0] at h ⊢
    simp at h
    subst h
    simp
  · obtain ⟨c, hc⟩ : ∃ c, (q + P - 1) / P = c + 1 := ⟨(q + P - 1) / P - 1, by omega⟩
    rw [hc] at h ⊢
    rw [Nat.add_mul, Nat.one_mul] at h
    simp only [Nat.add_sub_cancel]
    omega

/-- The layers of a run of the layer loop of `get` on sorted keys: the scan of
layer `k` ends at the last position below the threshold of that layer, and it
starts there times `P` from the layer above. -/
theorem descend_states_spec (P fuel n : Nat) (ls : List (List Nat)) (x : Nat) (q : Nat → Nat)
    (hn : n < 9223372036854775808) (hfuel : n ≤ fuel) :
    ∀ m, (∀ k, k < m → ∃ row, ls[k]? = some row ∧ row.length ≤ n ∧ Thresh row x (q k)) →
      (∀ k, k + 1 < m → (q (k + 1) - 1) * P ≤ q k - 1) →
      ∀ index, (∀ k, m = k + 1 → index * P ≤ q k - 1) →
      ∀ st, st ∈ layers_sln.descend_states P fuel ls x m index →
        st.1 < m ∧ st.2.2 = q st.1 - 1 ∧ (st.1 + 1 < m → st.2.1 = (q (st.1 + 1) - 1) * P) ∧
          (st.1 + 1 = m → st.2.1 = index * P) := by
  intro m
  induction m with
  | zero =>
    intro _ _ index _ st hst
    simp [layers_sln.descend_states] at hst
  | succ k ih =>
    intro hrows hq index hidx st hst
    obtain ⟨row, hr, hlen, ht⟩ := hrows k (by omega)
    have hpl := ht.1
    have hi := hidx k rfl
    unfold layers_sln.descend_states at hst
    rw [hr] at hst
    simp only at hst
    rw [wrap64_of_lt (by omega),
      scan_spec row x (q k) ht (by omega) fuel (index * P) (by omega) (by omega)] at hst
    simp only at hst
    have hres : (if index * P + 1 < q k then q k - 1 else index * P) = q k - 1 := by
      split <;> omega
    rw [hres] at hst
    rcases List.mem_cons.1 hst with h | h
    · subst h
      exact ⟨by show k < k + 1; omega, rfl, fun h => by simp at h, fun _ => rfl⟩
    · obtain ⟨a, b, c, d⟩ := ih (fun j hj => hrows j (by omega)) (fun j hj => hq j (by omega))
        (q k - 1) (fun j hj => by subst hj; exact hq j (by omega)) st h
      refine ⟨by omega, b, ?_, fun h => by omega⟩
      intro hlt
      rcases Nat.lt_or_ge (st.1 + 1) k with h1 | h1
      · exact c h1
      · have h2 : st.1 + 1 = k := by omega
        rw [d h2, h2]

theorem layerCount_eq {L : Nat} (hL1 : 1 ≤ L) (hL : L ≤ 2147483648) : layerCount L = L := by
  unfold layerCount toInt32
  rw [sub64_one hL1 (by omega)]
  have h : (L - 1) % 4294967296 = L - 1 := Nat.mod_eq_of_lt (by omega)
  rw [h]
  have h2 : L - 1 < 2147483648 := by omega
  simp only [h2, if_true]
  omega

/-- The scans of a run of `get` on sorted keys, below the layer the loop starts
in: each advances the running index at most `P - 1` times. -/
theorem layers_scan_gap (P L N fuel : Nat) (data : List Nat) (ls : List (List Nat)) (x : Nat)
    (hP : 1 ≤ P) (hL1 : 1 ≤ L) (hL : L < 18446744073709551616)
    (hsorted : data.Sorted (· ≤ ·)) (hlen : data.length = N)
    (hN : N < 9223372036854775808) (hfuel : N ≤ fuel) (hls : Layered P L data ls) :
    (layers_sln.descend_states P fuel ls x (layerCount L) 0).length = layerCount L ∧
      ∀ st, st ∈ layers_sln.descend_states P fuel ls x (layerCount L) 0 →
        st.1 + 1 < layerCount L →
        st.2.1 ≤ st.2.2 ∧ st.2.2 - st.2.1 ≤ P - 1 ∧
          ∃ row, ls[st.1]? = some row ∧ layers_sln.scan row x (P - 1) st.2.1 = .ok st.2.2 := by
  have hp := sorted_thresh data x hsorted
  have hm := layerCount_le hL1 hL
  have hrows : ∀ k, k < layerCount L → ∃ row, ls[k]? = some row ∧ row.length ≤ data.length ∧
      Thresh row x (layerThresh P (data.countP (fun k => decide (k < x))) k) :=
    fun k hk => hls.row_thresh hP hp k (by omega)
  have hd := descend_spec P fuel data.length ls x
    (layerThresh P (data.countP (fun k => decide (k < x)))) (by omega) (by omega) (layerCount L)
    hrows (fun k _ => layerThresh_step hP _ k) 0 (fun k _ => by simp)
  refine ⟨(descend_ok_states P fuel ls x _ 0 _ hd).1, ?_⟩
  intro st hst hlt
  obtain ⟨_, h2, h3, _⟩ := descend_states_spec P fuel data.length ls x
    (layerThresh P (data.countP (fun k => decide (k < x)))) (by omega) (by omega) (layerCount L)
    hrows (fun k _ => layerThresh_step hP _ k) 0 (fun k _ => by simp) st hst
  have h3' := h3 hlt
  have hstep := layerThresh_step hP (data.countP (fun k => decide (k < x))) st.1
  have hgap := layerThresh_gap hP (data.countP (fun k => decide (k < x))) st.1
  obtain ⟨row, hr, hrl, ht⟩ := hrows st.1 (by omega)
  have hpl := ht.1
  refine ⟨by omega, by omega, row, hr, ?_⟩
  rw [scan_spec row x _ ht (by omega) (P - 1) st.2.1 (by omega) (by omega), h2]
  have hres : (if st.2.1 + 1 < layerThresh P (data.countP (fun k => decide (k < x))) st.1
      then layerThresh P (data.countP (fun k => decide (k < x))) st.1 - 1 else st.2.1) =
      layerThresh P (data.countP (fun k => decide (k < x))) st.1 - 1 := by
    split <;> omega
  rw [hres]

/-! ## The claims -/

/-- C1. `binary_search_sln::get` on a key sequence sorted ascending of length
`n < 2^31`: for every `x` the returned `int` is the smallest index `i` with
`key[i] ≥ x`, or `n` if no key is `≥ x`, and it is the number of keys strictly
less than `x`. -/
theorem binary_search_get_lower_bound (data : List Nat) (x : Nat)
    (hsorted : data.Sorted (· ≤ ·)) (hn : data.length < 2147483648) :
    (binary_search_sln.mk data).get x = ((data.countP (fun k => decide (k < x)) : Nat) : Int) ∧
      IsLowerBound data x (data.countP (fun k => decide (k < x))) :=
  ⟨binary_get_thresh (sorted_thresh data x hsorted) hn,
    (sorted_thresh data x hsorted).isLowerBound⟩

/-- C1, at the key sequence `[10, 20, 20, 30]` and `x = 20`. -/
theorem binary_search_get_lower_bound_witness :
    List.Sorted (· ≤ ·) [10, 20, 20, 30] ∧
      ((binary_search_sln.mk [10, 20, 20, 30]).get 20 =
          (([10, 20, 20, 30].countP (fun k => decide (k < 20)) : Nat) : Int) ∧
        IsLowerBound [10, 20, 20, 30] 20 ([10, 20, 20, 30].countP (fun k => decide (k < 20)))) :=
  ⟨by decide, binary_search_get_lower_bound [10, 20, 20, 30] 20 (by decide) (by decide)⟩

/-- C2. `seg_tree_sln::get` on the structure built from a key sequence sorted
ascending whose length is the compiled constant `N ≥ 1` (a vector of 64-bit keys
has fewer than `2^60` elements), with an iteration budget of at least `N`:
construction and query finish without fault, the result is the number of keys
strictly less than `x`; it is `N` when `x` is greater than the last key, and
otherwise the smallest index in `[0, N-1]` whose key is `≥ x`. -/
theorem seg_tree_get_lower_bound (N fuel : Nat) (data : List Nat) (x : Nat)
    (hsorted : data.Sorted (· ≤ ·)) (hlen : data.length = N) (hN1 : 1 ≤ N)
    (hN : N < 1152921504606846976) (hfuel : N ≤ fuel) :
    ∃ s, seg_tree_sln.new N fuel data = .ok s ∧
      seg_tree_sln.get N fuel s x = .ok (data.countP (fun k => decide (k < x))) ∧
      (data.getD (N - 1) 0 < x → data.countP (fun k => decide (k < x)) = N) ∧
      (x ≤ data.getD (N - 1) 0 →
        data.countP (fun k => decide (k < x)) ≤ N - 1 ∧
        x ≤ data.getD (data.countP (fun k => decide (k < x))) 0 ∧
        ∀ j, j < data.countP (fun k => decide (k < x)) → data.getD j 0 < x) := by
  have hp := sorted_thresh data x hsorted
  obtain ⟨tree, e, _, nd⟩ := seg_tree_new_spec data N fuel hlen hN1 hN hfuel
  refine ⟨_, e, seg_tree_get_spec data tree N fuel x _ hlen hN1 hN hfuel hp nd, ?_, ?_⟩
  · intro hlast
    have := (hp.2 (N - 1) (by omega)).1 hlast
    have := hp.1
    omega
  · intro hlast
    have h1 := hp.2 (N - 1) (by omega)
    have hlt : data.countP (fun k => decide (k < x)) ≤ N - 1 := by omega
    have h2 := hp.2 (data.countP (fun k => decide (k < x))) (by omega)
    exact ⟨hlt, by omega, fun j hj => (hp.2 j (by omega)).2 hj⟩

/-- C2, at the key sequence `[10, 20, 20, 30]` with `N = 4` and `x = 20`. -/
theorem seg_tree_get_lower_bound_witness :
    List.Sorted (· ≤ ·) [10, 20, 20, 30] ∧
      ∃ s, seg_tree_sln.new 4 4 [10, 20, 20, 30] = .ok s ∧
        seg_tree_sln.get 4 4 s 20 = .ok ([10, 20, 20, 30].countP (fun k => decide (k < 20))) ∧
        (([10, 20, 20, 30] : List Nat).getD (4 - 1) 0 < 20 →
          [10, 20, 20, 30].countP (fun k => decide (k < 20)) = 4) ∧
        (20 ≤ ([10, 20, 20, 30] : List Nat).getD (4 - 1) 0 →
          [10, 20, 20, 30].countP (fun k => decide (k < 20)) ≤ 4 - 1 ∧
          20 ≤ ([10, 20, 20, 30] : List Nat).getD
            ([10, 20, 20, 30].countP (fun k => decide (k < 20))) 0 ∧
          ∀ j, j < [10, 20, 20, 30].countP (fun k => decide (k < 20)) →
            ([10, 20, 20, 30] : List Nat).getD j 0 < 20) :=
  ⟨by decide, seg_tree_get_lower_bound 4 4 [10, 20, 20, 30] 20 (by decide) rfl (by decide)
    (by decide) (by decide)⟩

/-- C3 as stated fails: with `L = 2^31 + 1` layers the initial value
`int layer = L - 1` is negative, the layer loop of `get` is not entered, and on
the sorted key sequence `[0, 1]` the query `x = 2` returns `1`, which is not the
lower-bound position `2`. -/
theorem layers_get_int_layer_counterexample :
    List.Sorted (· ≤ ·) [0, 1] ∧
      ∃ s, layers_sln.new 51 2147483649 2147483649 [0, 1] = .ok s ∧
        layers_sln.get 51 2147483649 2 2147483649 s 2 = .ok 1 ∧
        ¬ LowerBoundCorrect [0, 1] 2 1 := by
  refine ⟨by decide, ?_⟩
  obtain ⟨ls, e, hls⟩ := layers_new_spec 51 2147483649 2147483649 [0, 1] (by decide) (by decide)
    (by decide) (by decide) (by decide) (by decide) (le_refl _)
  refine ⟨_, e, ?_, ?_⟩
  · rw [layers_get_spec 51 2147483649 2 2147483649 [0, 1] ls 2 2 (by decide) (by decide)
      (by decide) (by decide) (by decide) (by decide) (by decide) hls
      (sorted_thresh [0, 1] 2 (by decide))]
    have hc : layerCount 2147483649 = 0 := by decide
    rw [hc]
    rfl
  · unfold LowerBoundCorrect
    decide

/-- C3, amended. For every stride `1 ≤ P`, every layer count `1 ≤ L` whose
`L - 1` is a non-negative `int` (`(L - 1) mod 2^32 < 2^31`, so every `L ≤ 2^31`
and the compiled pair `L = 3`, `P = 51`), every key sequence sorted ascending
of length `N ≥ 1` and every `x`, with `P`, `L` being `std::size_t` values, `N`
below the `2^60` elements a vector of 64-bit keys can hold, and an iteration
budget of at least `N` and `L`: construction and `get` finish without fault and
`get` returns the index `i` with `(i == 0 or key[i-1] < x)` and
`(i == N or key[i] >= x)`, the number of keys strictly less than `x`. -/
theorem layers_get_lower_bound (P L N fuel : Nat) (data : List Nat) (x : Nat)
    (hP1 : 1 ≤ P) (hP : P < 18446744073709551616)
    (hL1 : 1 ≤ L) (hL : L < 18446744073709551616) (hint : (L - 1) % 4294967296 < 2147483648)
    (hsorted : data.Sorted (· ≤ ·)) (hlen : data.length = N) (hN1 : 1 ≤ N)
    (hN : N < 1152921504606846976) (hfuel : N ≤ fuel) (hfuelL : L ≤ fuel) :
    ∃ s, layers_sln.new P L fuel data = .ok s ∧
      layers_sln.get P L N fuel s x = .ok (data.countP (fun k => decide (k < x))) ∧
      LowerBoundCorrect data x (data.countP (fun k => decide (k < x))) := by
  have hp := sorted_thresh data x hsorted
  obtain ⟨ls, e, hls⟩ := layers_new_spec P L fuel data hP1 hP (by omega) hL1 hL (by omega) hfuelL
  refine ⟨_, e, ?_, hp.lowerBoundCorrect⟩
  rw [layers_get_spec P L N fuel data ls x _ hP1 hL1 hL (by omega) (by omega) (by omega)
    (by omega) hls hp]
  have hc : layerCount L ≠ 0 := by
    have := layerCount_pos hL1 hL hint
    omega
  simp only [hc, if_false]

/-- C3 amended, at the compiled pair `L = 3`, `P = 51`, the key sequence
`[10, 20, 20, 30]` with `N = 4` and `x = 20`. -/
theorem layers_get_lower_bound_witness :
    List.Sorted (· ≤ ·) [10, 20, 20, 30] ∧
      ∃ s, layers_sln.new layers_sln.P layers_sln.L 4 [10, 20, 20, 30] = .ok s ∧
        layers_sln.get layers_sln.P layers_sln.L 4 4 s 20 =
          .ok ([10, 20, 20, 30].countP (fun k => decide (k < 20))) ∧
        LowerBoundCorrect [10, 20, 20, 30] 20
          ([10, 20, 20, 30].countP (fun k => decide (k < 20))) :=
  ⟨by decide, layers_get_lower_bound layers_sln.P layers_sln.L 4 4 [10, 20, 20, 30] 20
    (by decide) (by decide) (by decide) (by decide) (by decide) (by decide) rfl (by decide)
    (by decide) (by decide) (by decide)⟩


/-- C4. Cross-variant equivalence, for a sorted key sequence whose length is the
constant `N` (`1 ≤ N < 2^31`), a layered index whose constants `P`, `L` are in
the range of the compiled pair, and an iteration budget of at least `N` and `L`:
`binary_search_sln::get`, `seg_tree_sln::get` and `layers_sln::get`, each built
from that key sequence, return the same index `i`; `i = 0` for `x` below the
minimum key, `i = N` for `x` above the maximum key, `i` is the position of the
first occurrence for `x` equal to a key, and `i = j + 1` for `x` strictly
between the adjacent keys `key[j]` and `key[j+1]`. -/
theorem variants_return_same_index (P L N fuel : Nat) (data : List Nat) (x : Nat)
    (hP1 : 1 ≤ P) (hP : P < 18446744073709551616)
    (hL1 : 1 ≤ L) (hL : L < 18446744073709551616) (hint : (L - 1) % 4294967296 < 2147483648)
    (hsorted : data.Sorted (· ≤ ·)) (hlen : data.length = N) (hN1 : 1 ≤ N)
    (hN : N < 2147483648) (hfuel : N ≤ fuel) (hfuelL : L ≤ fuel) :
    ∃ (st : seg_tree_sln) (ly : layers_sln) (i : Nat),
      seg_tree_sln.new N fuel data = .ok st ∧ layers_sln.new P L fuel data = .ok ly ∧
      (binary_search_sln.mk data).get x = (i : Int) ∧
      seg_tree_sln.get N fuel st x = .ok i ∧
      layers_sln.get P L N fuel ly x = .ok i ∧
      (x < data.getD 0 0 → i = 0) ∧
      (data.getD (N - 1) 0 < x → i = N) ∧
      (x ∈ data → i = data.indexOf x) ∧
      (∀ j, j + 1 < N → data.getD j 0 < x → x < data.getD (j + 1) 0 → i = j + 1) := by
  have hp := sorted_thresh data x hsorted
  have hpl := hp.1
  obtain ⟨tree, e1, _, nd⟩ := seg_tree_new_spec data N fuel hlen hN1 (by omega) hfuel
  obtain ⟨ls, e2, hls⟩ := layers_new_spec P L fuel data hP1 hP (by omega) hL1 hL (by omega) hfuelL
  have hc : layerCount L ≠ 0 := by
    have := layerCount_pos hL1 hL hint
    omega
  refine ⟨_, _, data.countP (fun k => decide (k < x)), e1, e2,
    binary_get_thresh hp (by omega),
    seg_tree_get_spec data tree N fuel x _ hlen hN1 (by omega) hfuel hp nd, ?_, ?_, ?_, ?_, ?_⟩
  · rw [layers_get_spec P L N fuel data ls x _ hP1 hL1 hL (by omega) (by omega) (by omega)
      (by omega) hls hp, if_neg hc]
  · intro hx
    have := hp.2 0 (by omega)
    omega
  · intro hx
    have := (hp.2 (N - 1) (by omega)).1 hx
    omega
  · intro hx
    exact (hp.indexOf hsorted hx).symm
  · intro j hj h1 h2
    have a := (hp.2 j (by omega)).1 h1
    have b := hp.2 (j + 1) (by omega)
    omega

/-- C4, at the key sequence `[10, 20, 20, 30]` with `N = 4`, the compiled pair
`L = 3`, `P = 51` and `x = 20`. -/
theorem variants_return_same_index_witness :
    List.Sorted (· ≤ ·) [10, 20, 20, 30] ∧
      ∃ (st : seg_tree_sln) (ly : layers_sln) (i : Nat),
        seg_tree_sln.new 4 4 [10, 20, 20, 30] = .ok st ∧
        layers_sln.new layers_sln.P layers_sln.L 4 [10, 20, 20, 30] = .ok ly ∧
        (binary_search_sln.mk [10, 20, 20, 30]).get 20 = (i : Int) ∧
        seg_tree_sln.get 4 4 st 20 = .ok i ∧
        layers_sln.get layers_sln.P layers_sln.L 4 4 ly 20 = .ok i ∧
        (20 < ([10, 20, 20, 30] : List Nat).getD 0 0 → i = 0) ∧
        (([10, 20, 20, 30] : List Nat).getD (4 - 1) 0 < 20 → i = 4) ∧
        (20 ∈ ([10, 20, 20, 30] : List Nat) → i = ([10, 20, 20, 30] : List Nat).indexOf 20) ∧
        (∀ j, j + 1 < 4 → ([10, 20, 20, 30] : List Nat).getD j 0 < 20 →
          20 < ([10, 20, 20, 30] : List Nat).getD (j + 1) 0 → i = j + 1) :=
  ⟨by decide, variants_return_same_index layers_sln.P layers_sln.L 4 4 [10, 20, 20, 30] 20
    (by decide) (by decide) (by decide) (by decide) (by decide) (by decide) rfl (by decide)
    (by decide) (by decide) (by decide)⟩

/-- C5. Hash oracle: for a sorted key sequence whose length is the constant `N`
(`1 ≤ N < 2^31`), layer constants in the range of the compiled pair, an
iteration budget of at least `N` and `L`, and every query sequence,
`solve(sln, requests)` returns the same hash whether `sln` is the
`binary_search_sln`, the `seg_tree_sln` or the `layers_sln` built from that key
sequence. -/
theorem solve_hash_same_for_variants (P L N fuel : Nat) (data requests : List Nat)
    (hP1 : 1 ≤ P) (hP : P < 18446744073709551616)
    (hL1 : 1 ≤ L) (hL : L < 18446744073709551616) (hint : (L - 1) % 4294967296 < 2147483648)
    (hsorted : data.Sorted (· ≤ ·)) (hlen : data.length = N) (hN1 : 1 ≤ N)
    (hN : N < 2147483648) (hfuel : N ≤ fuel) (hfuelL : L ≤ fuel) :
    ∃ hash, Solution.binary_search.run data requests = .ok hash ∧
      (Solution.seg_tree N fuel).run data requests = .ok hash ∧
      (Solution.layers P L N fuel).run data requests = .ok hash :=
  ⟨_, binary_run_spec data requests hsorted (by omega),
    seg_tree_run_spec N fuel data requests hsorted hlen hN1 (by omega) hfuel,
    layers_run_spec P L N fuel data requests hP1 hP hL1 hL hint hsorted hlen hN1 (by omega)
      hfuel hfuelL⟩

/-- C5, at the key sequence `[10, 20, 20, 30]` with `N = 4`, the compiled pair
`L = 3`, `P = 51` and the queries `[20, 5, 35]`. -/
theorem solve_hash_same_for_variants_witness :
    List.Sorted (· ≤ ·) [10, 20, 20, 30] ∧
      ∃ hash, Solution.binary_search.run [10, 20, 20, 30] [20, 5, 35] = .ok hash ∧
        (Solution.seg_tree 4 4).run [10, 20, 20, 30] [20, 5, 35] = .ok hash ∧
        (Solution.layers layers_sln.P layers_sln.L 4 4).run [10, 20, 20, 30] [20, 5, 35] =
          .ok hash :=
  ⟨by decide, solve_hash_same_for_variants layers_sln.P layers_sln.L 4 4 [10, 20, 20, 30]
    [20, 5, 35] (by decide) (by decide) (by decide) (by decide) (by decide) (by decide) rfl
    (by decide) (by decide) (by decide) (by decide)⟩

/-- C6. Sample scenario: built from the key sequence `[10, 20, 20, 30]` (the
length constant `N` being its length `4`, the layered index with the compiled
`L = 3`, `P = 51`, any iteration budget of at least `4`), each of
`binary_search_sln`, `seg_tree_sln` and `layers_sln` returns index `1` for
`get(20)`, index `0` for `get(5)` and index `4` for `get(35)`. -/
theorem sample_scenario (fuel : Nat) (hfuel : 4 ≤ fuel) :
    ((binary_search_sln.mk [10, 20, 20, 30]).get 20 = 1 ∧
      (binary_search_sln.mk [10, 20, 20, 30]).get 5 = 0 ∧
      (binary_search_sln.mk [10, 20, 20, 30]).get 35 = 4) ∧
    (∃ s, seg_tree_sln.new 4 fuel [10, 20, 20, 30] = .ok s ∧
      seg_tree_sln.get 4 fuel s 20 = .ok 1 ∧ seg_tree_sln.get 4 fuel s 5 = .ok 0 ∧
      seg_tree_sln.get 4 fuel s 35 = .ok 4) ∧
    (∃ s, layers_sln.new layers_sln.P layers_sln.L fuel [10, 20, 20, 30] = .ok s ∧
      layers_sln.get layers_sln.P layers_sln.L 4 fuel s 20 = .ok 1 ∧
      layers_sln.get layers_sln.P layers_sln.L 4 fuel s 5 = .ok 0 ∧
      layers_sln.get layers_sln.P layers_sln.L 4 fuel s 35 = .ok 4) := by
  have hs : List.Sorted (· ≤ ·) [10, 20, 20, 30] := by decide
  have t20 : Thresh [10, 20, 20, 30] 20 1 := sorted_thresh _ 20 hs
  have t5 : Thresh [10, 20, 20, 30] 5 0 := sorted_thresh _ 5 hs
  have t35 : Thresh [10, 20, 20, 30] 35 4 := sorted_thresh _ 35 hs
  refine ⟨⟨by decide, by decide, by decide⟩, ?_, ?_⟩
  · obtain ⟨tree, e, _, nd⟩ := seg_tree_new_spec [10, 20, 20, 30] 4 fuel rfl (by decide)
      (by decide) hfuel
    exact ⟨_, e, seg_tree_get_spec _ tree 4 fuel 20 1 rfl (by decide) (by decide) hfuel t20 nd,
      seg_tree_get_spec _ tree 4 fuel 5 0 rfl (by decide) (by decide) hfuel t5 nd,
      seg_tree_get_spec _ tree 4 fuel 35 4 rfl (by decide) (by decide) hfuel t35 nd⟩
  · obtain ⟨ls, e, hls⟩ := layers_new_spec layers_sln.P layers_sln.L fuel [10, 20, 20, 30]
      (by decide) (by decide) (by decide) (by decide) (by decide) hfuel
      (le_trans (by decide) hfuel)
    have hc : layerCount layers_sln.L ≠ 0 := by decide
    have hget : ∀ x p, Thresh [10, 20, 20, 30] x p →
        layers_sln.get layers_sln.P layers_sln.L 4 fuel { layers := ls } x = .ok p := by
      intro x p hp
      rw [layers_get_spec layers_sln.P layers_sln.L 4 fuel [10, 20, 20, 30] ls x p (by decide)
        (by decide) (by decide) (by decide) (by decide) (by decide) hfuel hls hp, if_neg hc]
    exact ⟨_, e, hget 20 1 t20, hget 5 0 t5, hget 35 4 t35⟩

/-- C6, at the iteration budget `4`. -/
theorem sample_scenario_witness :
    ((binary_search_sln.mk [10, 20, 20, 30]).get 20 = 1 ∧
      (binary_search_sln.mk [10, 20, 20, 30]).get 5 = 0 ∧
      (binary_search_sln.mk [10, 20, 20, 30]).get 35 = 4) ∧
    (∃ s, seg_tree_sln.new 4 4 [10, 20, 20, 30] = .ok s ∧
      seg_tree_sln.get 4 4 s 20 = .ok 1 ∧ seg_tree_sln.get 4 4 s 5 = .ok 0 ∧
      seg_tree_sln.get 4 4 s 35 = .ok 4) ∧
    (∃ s, layers_sln.new layers_sln.P layers_sln.L 4 [10, 20, 20, 30] = .ok s ∧
      layers_sln.get layers_sln.P layers_sln.L 4 4 s 20 = .ok 1 ∧
      layers_sln.get layers_sln.P layers_sln.L 4 4 s 5 = .ok 0 ∧
      layers_sln.get layers_sln.P layers_sln.L 4 4 s 35 = .ok 4) :=
  sample_scenario 4 (by decide)


/-- C7. Layered-index size-1 edge case: for every stride `P ≥ 1`, every layer
count `L ≥ 1` (both `std::size_t` values), every one-element key sequence `[k]`
and every `x`, with an iteration budget of at least `L`, construction and `get`
finish without an access outside a layer, and `get` returns `0` when `x ≤ k`
and `1` when `x > k`; this holds for every value `N ≥ 1` of the length
constant. -/
theorem layers_get_singleton (P L N fuel k x : Nat)
    (hP1 : 1 ≤ P) (hP : P < 18446744073709551616)
    (hL1 : 1 ≤ L) (hL : L < 18446744073709551616) (hN1 : 1 ≤ N) (hfuelL : L ≤ fuel) :
    ∃ s, layers_sln.new P L fuel [k] = .ok s ∧
      layers_sln.get P L N fuel s x = .ok (if x ≤ k then 0 else 1) := by
  have hs : List.Sorted (· ≤ ·) [k] := List.sorted_singleton k
  have hp := sorted_thresh [k] x hs
  obtain ⟨ls, e, hls⟩ := layers_new_spec P L fuel [k] hP1 hP (by simp) hL1 hL
    (le_trans hL1 hfuelL) hfuelL
  refine ⟨_, e, ?_⟩
  rw [layers_get_spec P L N fuel [k] ls x _ hP1 hL1 hL (le_refl _) hN1 (by simp)
    (le_trans hL1 hfuelL) hls hp]
  by_cases hx : x ≤ k
  · have hk : ¬ k < x := by omega
    simp [hx, hk, List.countP_cons]
  · have hk : k < x := by omega
    simp [hx, hk, List.countP_cons]

/-- C7, at the compiled pair `L = 3`, `P = 51`, the compiled `N`, the key
sequence `[7]` and `x = 9`. -/
theorem layers_get_singleton_witness :
    ∃ s, layers_sln.new layers_sln.P layers_sln.L 3 [7] = .ok s ∧
      layers_sln.get layers_sln.P layers_sln.L N 3 s 9 = .ok (if 9 ≤ 7 then 0 else 1) :=
  layers_get_singleton layers_sln.P layers_sln.L N 3 7 9 (by decide) (by decide) (by decide)
    (by decide) (by decide) (by decide)

/-- C8. Rolling hash: for every lookup structure whose `get` returns indices up
to `N` and every query sequence, `solve` returns `h_M` where `h_0 = 0` and
`h_j = (h_{j-1} * 13 + get(q_j) + 1) mod 1000000007` over the exact integers
(the unsigned 64-bit arithmetic does not wrap around), the result is
`< 1000000007`, and the results `0, 1, 2` in that order give `198`. -/
theorem solve_rolling_hash (get : Nat → Except Fault Nat) (index : Nat → Nat) (N : Nat)
    (requests : List Nat) (hN : N < 9223372036854775808)
    (hget : ∀ q, q ∈ requests → get q = .ok (index q) ∧ index q ≤ N) :
    solve get requests = .ok (rollingHash (requests.map index)) ∧
      rollingHash (requests.map index) < MOD ∧
      rollingHash [0, 1, 2] = 198 := by
  obtain ⟨h1, h2⟩ := solveLoop_exact get index N hN requests 0 (by decide) hget
  exact ⟨h1, h2, by decide⟩

/-- C8, at a structure that answers the queries `0, 1, 2` with the indices `0, 1, 2`. -/
theorem solve_rolling_hash_witness :
    solve (fun q => .ok q) [0, 1, 2] = .ok (rollingHash ([0, 1, 2].map (fun q => q))) ∧
      rollingHash ([0, 1, 2].map (fun q => q)) < MOD ∧
      rollingHash [0, 1, 2] = 198 :=
  solve_rolling_hash (fun q => .ok q) (fun q => q) 2 [0, 1, 2] (by decide)
    (fun q hq => ⟨rfl, by
      simp only [List.mem_cons, List.mem_singleton, List.not_mem_nil, or_false] at hq
      show q ≤ 2
      omega⟩)

/-- C9. Data generator: for every generator state, `build_test` returns a key
sequence of length `N` that is sorted ascending and is a permutation of the
first `N` values drawn from the generator, and a query sequence of length `M`
that consists of the next `M` drawn values in the order they were drawn. -/
theorem build_test_output {σ : Type} (e : Engine σ) (N M : Nat) (gen : σ) :
    (build_test e N M gen).1.1.length = N ∧
      (build_test e N M gen).1.1.Sorted (· ≤ ·) ∧
      (build_test e N M gen).1.1.Perm (draws e N gen) ∧
      (build_test e N M gen).1.2.length = M ∧
      (build_test e N M gen).1.2 = draws e M (afterDraws e N gen) := by
  rw [build_test_spec]
  exact ⟨by rw [List.length_insertionSort, length_draws], List.sorted_insertionSort _ _,
    List.perm_insertionSort _ _, length_draws e M _, rfl⟩

/-- C10. Determinism across variants: the `(key sequence, query sequence)` pairs
that `test_case` builds for the trials `1..TESTS` are the same list for
`test_case<binary_search_sln>`, `test_case<seg_tree_sln>` and
`test_case<layers_sln>`, whatever state the global generator is in when the
series starts; the list is the one obtained by calling `build_test` `TESTS`
times from the engine seeded with `42`, and `main` goes through it three times.
The constants are `std::size_t` values with `N ≥ 1`, `P ≥ 1`, `L ≥ 1`, and the
iteration budget is at least `N` and `L`, so that every run returns. -/
theorem test_case_inputs_same_for_variants {σ : Type} (e : Engine σ)
    (TESTS N M P L fuel : Nat) (hP1 : 1 ≤ P) (hP : P < 18446744073709551616)
    (hL1 : 1 ≤ L) (hL : L < 18446744073709551616) (hN1 : 1 ≤ N)
    (hN : N < 1152921504606846976) (hfuel : N ≤ fuel) (hfuelL : L ≤ fuel)
    (gen₁ gen₂ gen₃ : σ) :
    (∃ r₁ r₂ r₃, test_case e TESTS N M Solution.binary_search gen₁ = .ok r₁ ∧
      test_case e TESTS N M (Solution.seg_tree N fuel) gen₂ = .ok r₂ ∧
      test_case e TESTS N M (Solution.layers P L N fuel) gen₃ = .ok r₃ ∧
      r₁.inputs = trialInputs e N M TESTS (e.seed 42) ∧
      r₂.inputs = trialInputs e N M TESTS (e.seed 42) ∧
      r₃.inputs = trialInputs e N M TESTS (e.seed 42)) ∧
    (∃ r₁ r₂ r₃, main e TESTS N M P L fuel gen₁ = .ok (r₁, r₂, r₃) ∧
      r₁.inputs = r₂.inputs ∧ r₂.inputs = r₃.inputs ∧ r₁.inputs.length = TESTS) := by
  have hb := fun g => test_case_spec e TESTS N M Solution.binary_search (binary_total N) g
  have hs := fun g => test_case_spec e TESTS N M (Solution.seg_tree N fuel)
    (seg_tree_total N fuel hN1 hN hfuel) g
  have hl := fun g => test_case_spec e TESTS N M (Solution.layers P L N fuel)
    (layers_total P L N fuel hP1 hP hL1 hL hN1 hN hfuel hfuelL) g
  constructor
  · obtain ⟨r₁, e₁, i₁⟩ := hb gen₁
    obtain ⟨r₂, e₂, i₂⟩ := hs gen₂
    obtain ⟨r₃, e₃, i₃⟩ := hl gen₃
    exact ⟨r₁, r₂, r₃, e₁, e₂, e₃, i₁, i₂, i₃⟩
  · obtain ⟨r₁, e₁, i₁⟩ := hb gen₁
    obtain ⟨r₂, e₂, i₂⟩ := hs r₁.gen
    obtain ⟨r₃, e₃, i₃⟩ := hl r₂.gen
    refine ⟨r₁, r₂, r₃, ?_, by rw [i₁, i₂], by rw [i₂, i₃], by
      rw [i₁, length_trialInputs]⟩
    unfold main
    rw [e₁]; simp only [ok_bind]
    rw [e₂]; simp only [ok_bind]
    rw [e₃]; rfl


/-- C10, at a small linear congruential engine with `TESTS = 2`, `N = 4`,
`M = 3`, stride `2`, two layers, and three different incoming generator states. -/
theorem test_case_inputs_same_for_variants_witness :
    (∃ r₁ r₂ r₃,
      test_case (Engine.mk (fun s => s) (fun g => ((g * 7 + 3) % 101, (g * 7 + 3) % 101)))
        2 4 3 Solution.binary_search 0 = .ok r₁ ∧
      test_case (Engine.mk (fun s => s) (fun g => ((g * 7 + 3) % 101, (g * 7 + 3) % 101)))
        2 4 3 (Solution.seg_tree 4 10) 1 = .ok r₂ ∧
      test_case (Engine.mk (fun s => s) (fun g => ((g * 7 + 3) % 101, (g * 7 + 3) % 101)))
        2 4 3 (Solution.layers 2 2 4 10) 2 = .ok r₃ ∧
      r₁.inputs = trialInputs
        (Engine.mk (fun s => s) (fun g => ((g * 7 + 3) % 101, (g * 7 + 3) % 101))) 4 3 2 42 ∧
      r₂.inputs = trialInputs
        (Engine.mk (fun s => s) (fun g => ((g * 7 + 3) % 101, (g * 7 + 3) % 101))) 4 3 2 42 ∧
      r₃.inputs = trialInputs
        (Engine.mk (fun s => s) (fun g => ((g * 7 + 3) % 101, (g * 7 + 3) % 101))) 4 3 2 42) ∧
    (∃ r₁ r₂ r₃,
      main (Engine.mk (fun s => s) (fun g => ((g * 7 + 3) % 101, (g * 7 + 3) % 101)))
        2 4 3 2 2 10 0 = .ok (r₁, r₂, r₃) ∧
      r₁.inputs = r₂.inputs ∧ r₂.inputs = r₃.inputs ∧ r₁.inputs.length = 2) :=
  test_case_inputs_same_for_variants
    (Engine.mk (fun s => s) (fun g => ((g * 7 + 3) % 101, (g * 7 + 3) % 101)))
    2 4 3 2 2 10 (by decide) (by decide) (by decide) (by decide) (by decide) (by decide)
    (by decide) (by decide) 0 1 2

/-- C11 as stated fails: in a series of two trials on a small engine the second
call of `build_test` starts from the state the first call left behind, which is
not the freshly seeded state, and the data it builds differ from the data built
from the freshly seeded state. -/
theorem reseed_per_trial_counterexample :
    ∃ r, test_case demoEngine 2 4 3 Solution.binary_search 0 = .ok r ∧
      r.inputs[1]? = some (build_test demoEngine 4 3 (trialStart demoEngine 4 3 1)).1 ∧
      trialStart demoEngine 4 3 1 ≠ demoEngine.seed 42 ∧
      r.inputs[1]? ≠ some (build_test demoEngine 4 3 (demoEngine.seed 42)).1 := by
  obtain ⟨r, er, hin, _⟩ := test_case_full demoEngine 2 4 3 Solution.binary_search
    (binary_total 4) 0
  refine ⟨r, er, ?_, by decide, ?_⟩
  · rw [hin]; decide
  · rw [hin]; decide

/-- C11, amended. Within a variant's trial series in `test_case` the generator
is seeded with `42` once, at the start of the series: the first call of
`build_test` starts from the freshly seeded state and every subsequent call
starts from the state the previous call left behind (`trialStart`); the state
after the series is the one left by the last call. This holds for every
`Solution` that answers every query on sorted key sequences of length `N`, as
the three variants do. -/
theorem test_case_seeds_once {σ : Type} (e : Engine σ) (TESTS N M : Nat) (sol : Solution)
    (hsol : ∀ data : List Nat, data.Sorted (· ≤ ·) → data.length = N →
      ∃ s, sol.new data = .ok s ∧ ∀ x, ∃ i, sol.get s x = .ok i) (gen : σ) :
    ∃ r, test_case e TESTS N M sol gen = .ok r ∧ r.inputs.length = TESTS ∧
      (∀ t, t < TESTS → r.inputs[t]? = some (build_test e N M (trialStart e N M t)).1) ∧
      r.gen = trialStart e N M TESTS ∧
      trialStart e N M 0 = e.seed 42 ∧
      (∀ t, trialStart e N M (t + 1) = (build_test e N M (trialStart e N M t)).2) := by
  obtain ⟨r, er, hin, _, _, _, _, hgen⟩ := test_case_full e TESTS N M sol hsol gen
  refine ⟨r, er, by rw [hin, length_trialInputs], ?_, hgen, rfl, fun _ => rfl⟩
  intro t ht
  rw [hin, trialInputs_getElem? e N M TESTS _ t ht, trialStart_eq_iterate]

/-- C11 amended, at `test_case<seg_tree_sln>` on a small engine with
`TESTS = 2`, `N = 4`, `M = 3`. -/
theorem test_case_seeds_once_witness :
    ∃ r, test_case demoEngine 2 4 3 (Solution.seg_tree 4 10) 7 = .ok r ∧ r.inputs.length = 2 ∧
      (∀ t, t < 2 →
        r.inputs[t]? = some (build_test demoEngine 4 3 (trialStart demoEngine 4 3 t)).1) ∧
      r.gen = trialStart demoEngine 4 3 2 ∧
      trialStart demoEngine 4 3 0 = demoEngine.seed 42 ∧
      (∀ t, trialStart demoEngine 4 3 (t + 1) =
        (build_test demoEngine 4 3 (trialStart demoEngine 4 3 t)).2) :=
  test_case_seeds_once demoEngine 2 4 3 (Solution.seg_tree 4 10)
    (seg_tree_total 4 10 (by decide) (by decide) (by decide)) 7

/-- C12. Cross-trial accumulator: the total hash that `test_case` computes from
the per-trial hashes `t_1..t_TESTS` (`TESTS = 5` as compiled) is `T_TESTS` where
`T_0 = 0` and `T_j = (T_{j-1} * 1273 + t_j) mod 1000000007` over the exact
integers: the unsigned 64-bit operations do not wrap around, every `t_j` is
`< 1000000007`, and so is the total. This holds for every `Solution` that
answers every query on sorted key sequences of length `N`, as the three
variants do. -/
theorem test_case_total_hash {σ : Type} (e : Engine σ) (TESTS N M : Nat) (sol : Solution)
    (hsol : ∀ data : List Nat, data.Sorted (· ≤ ·) → data.length = N →
      ∃ s, sol.new data = .ok s ∧ ∀ x, ∃ i, sol.get s x = .ok i) (gen : σ) :
    ∃ r, test_case e TESTS N M sol gen = .ok r ∧ r.trials.length = TESTS ∧
      (∀ t, t ∈ r.trials → t.hash < MOD) ∧
      r.total_hash = crossHash (r.trials.map (fun t => t.hash)) ∧
      r.total_hash < MOD := by
  obtain ⟨r, er, _, hlen, hhash, htot, hlt, _⟩ := test_case_full e TESTS N M sol hsol gen
  exact ⟨r, er, hlen, hhash, htot, hlt⟩

/-- C12, at `test_case<layers_sln>` with the compiled `TESTS = 5`, `L = 3`,
`P = 51` on a small engine with `N = 4`, `M = 3`. -/
theorem test_case_total_hash_witness :
    ∃ r, test_case demoEngine TESTS 4 3 (Solution.layers layers_sln.P layers_sln.L 4 10) 0 =
        .ok r ∧ r.trials.length = TESTS ∧
      (∀ t, t ∈ r.trials → t.hash < MOD) ∧
      r.total_hash = crossHash (r.trials.map (fun t => t.hash)) ∧
      r.total_hash < MOD :=
  test_case_total_hash demoEngine TESTS 4 3 (Solution.layers layers_sln.P layers_sln.L 4 10)
    (layers_total layers_sln.P layers_sln.L 4 10 (by decide) (by decide) (by decide)
      (by decide) (by decide) (by decide) (by decide) (by decide)) 0

/-- C13. Segment-tree index bound: for every `N ≥ 1` (a power of two or not;
`N` below the `2^60` elements a vector of 64-bit keys can hold) and a budget of
at least `N`, `build_segtree(0, 0, N-1)` on the `4 * N`-element tree returns
without an out-of-bounds access and every call `(v, tl, tr)` it makes writes at
`v < 4 * N`; and for every `x` and every content of a `4 * N`-element tree,
`lower_bound(0, 0, N-1, x)` returns without an out-of-bounds access and every
state `(v, tl, tr)` of its loop has `v < 4 * N`. -/
theorem seg_tree_indices_in_bounds (N fuel : Nat) (data tree : List Nat) (x : Nat)
    (hlen : data.length = N) (hN1 : 1 ≤ N) (hN : N < 1152921504606846976) (hfuel : N ≤ fuel)
    (htree : tree.length = 4 * N) :
    (∃ t, seg_tree_sln.build_segtree data fuel (List.replicate (wrap64 (4 * N)) 0) 0 0
        (sub64 N 1) = .ok t) ∧
      (∀ c, c ∈ seg_tree_sln.build_calls fuel 0 0 (sub64 N 1) → c.1 < 4 * N) ∧
      (∃ i, seg_tree_sln.lower_bound tree x fuel 0 0 (sub64 N 1) = .ok i) ∧
      (∀ s, s ∈ seg_tree_sln.lower_bound_states tree x fuel 0 0 (sub64 N 1) → s.1 < 4 * N) := by
  rw [sub64_one hN1 (by omega), wrap64_of_lt (by omega)]
  obtain ⟨t, e, _, _, _⟩ := build_segtree_spec data N hlen hN fuel (List.replicate (4 * N) 0)
    0 0 (N - 1) (by omega) (by omega) (by omega) (Fits.root hN1) (by simp)
  obtain ⟨hst, _, hok⟩ := lower_bound_run tree N x htree hN fuel 0 0 (N - 1) (by omega)
    (by omega) (Fits.root hN1)
  have hpow : N - 1 - 0 + 1 ≤ 2 ^ fuel := by
    have := Nat.lt_two_pow fuel
    omega
  obtain ⟨i, ei, _, _⟩ := hok hpow
  refine ⟨⟨t, e⟩, ?_, ⟨i, ei⟩, fun s hs => (hst s hs).2.1⟩
  intro c hc
  have := (build_segtree_ok_calls data fuel _ 0 0 (N - 1) t e).2 c hc
  simpa using this

/-- C13, at `N = 5`, which is not a power of two. -/
theorem seg_tree_indices_in_bounds_witness :
    (∃ t, seg_tree_sln.build_segtree [1, 2, 3, 4, 5] 5 (List.replicate (wrap64 (4 * 5)) 0) 0 0
        (sub64 5 1) = .ok t) ∧
      (∀ c, c ∈ seg_tree_sln.build_calls 5 0 0 (sub64 5 1) → c.1 < 4 * 5) ∧
      (∃ i, seg_tree_sln.lower_bound (List.replicate 20 7) 9 5 0 0 (sub64 5 1) = .ok i) ∧
      (∀ s, s ∈ seg_tree_sln.lower_bound_states (List.replicate 20 7) 9 5 0 0 (sub64 5 1) →
        s.1 < 4 * 5) :=
  seg_tree_indices_in_bounds 5 5 [1, 2, 3, 4, 5] (List.replicate 20 7) 9 rfl (by decide)
    (by decide) (by decide) rfl

/-- C14. Segment-tree contents: after construction from a key sequence of length
`N` (`1 ≤ N`, below `2^60`, budget at least `N`), for every node `v` with range
`[tl, tr]` reached from the root (`v = 0`, range `[0, N-1]`) by the rule "left
child `2v+1` covers `[tl, tm]`, right child `2v+2` covers `[tm+1, tr]`,
`tm = (tl+tr)/2`", `tree[v]` equals `key[tl]` when `tl == tr` and
`key[(tl+tr)/2]` otherwise. -/
theorem seg_tree_contents (N fuel : Nat) (data : List Nat)
    (hlen : data.length = N) (hN1 : 1 ≤ N) (hN : N < 1152921504606846976) (hfuel : N ≤ fuel) :
    ∃ s, seg_tree_sln.new N fuel data = .ok s ∧ s.data = data ∧ s.tree.length = 4 * N ∧
      ∀ v tl tr, Covers 0 0 (N - 1) v tl tr →
        s.tree[v]? = some (if tl = tr then data.getD tl 0 else data.getD ((tl + tr) / 2) 0) := by
  obtain ⟨tree, e, len, nd⟩ := seg_tree_new_spec data N fuel hlen hN1 hN hfuel
  refine ⟨_, e, rfl, len, ?_⟩
  intro v tl tr hc
  show tree[v]? = _
  rw [nd v tl tr hc]
  by_cases heq : tl = tr
  · subst heq
    have : (tl + tl) / 2 = tl := by omega
    simp [this]
  · simp [heq]

/-- C14, at the key sequence `[10, 20, 20, 30]` with `N = 4`. -/
theorem seg_tree_contents_witness :
    ∃ s, seg_tree_sln.new 4 4 [10, 20, 20, 30] = .ok s ∧ s.data = [10, 20, 20, 30] ∧
      s.tree.length = 4 * 4 ∧
      ∀ v tl tr, Covers 0 0 (4 - 1) v tl tr →
        s.tree[v]? = some (if tl = tr then ([10, 20, 20, 30] : List Nat).getD tl 0
          else ([10, 20, 20, 30] : List Nat).getD ((tl + tr) / 2) 0) :=
  seg_tree_contents 4 4 [10, 20, 20, 30] rfl (by decide) (by decide) (by decide)

/-- C15. Segment-tree descent window invariant: for every sorted key sequence of
length `N` (`1 ≤ N`, below `2^60`) and every `x` not greater than the last key,
on the structure built from it, every state `(v, tl, tr)` of the loop of
`lower_bound(0, 0, N-1, x)` (the start of every iteration and the exit, for any
budget) has `tl ≤ p ≤ tr` for the lower-bound position `p` of `x`, and `v` is
the node reached from the root with range `[tl, tr]`; with a budget of at least
`N` the last state is the exit `tl = tr = p`. -/
theorem seg_tree_descent_window (N fuel : Nat) (data : List Nat) (x : Nat)
    (hsorted : data.Sorted (· ≤ ·)) (hlen : data.length = N) (hN1 : 1 ≤ N)
    (hN : N < 1152921504606846976) (hx : x ≤ data.getD (N - 1) 0) (hfuel : N ≤ fuel) :
    ∃ s p, seg_tree_sln.new N fuel data = .ok s ∧ IsLowerBound data x p ∧
      (∀ budget st, st ∈ seg_tree_sln.lower_bound_states s.tree x budget 0 0 (sub64 N 1) →
        st.2.1 ≤ p ∧ p ≤ st.2.2 ∧ Covers 0 0 (N - 1) st.1 st.2.1 st.2.2) ∧
      ∃ u, (seg_tree_sln.lower_bound_states s.tree x fuel 0 0 (sub64 N 1)).getLast? =
        some (u, p, p) := by
  have hp := sorted_thresh data x hsorted
  have hpl := hp.1
  have hlast := hp.2 (N - 1) (by omega)
  obtain ⟨tree, e, len, nd⟩ := seg_tree_new_spec data N fuel hlen hN1 hN hfuel
  refine ⟨_, data.countP (fun k => decide (k < x)), e, hp.isLowerBound, ?_, ?_⟩
  · intro budget st hst
    rw [sub64_one hN1 (by omega)] at hst
    have h1 := lower_bound_states_window data tree N x _ hlen hN hp budget 0 0 (N - 1)
      (by omega) (by omega) (Fits.root hN1) nd (by omega) (by omega) st hst
    have h2 := (lower_bound_run tree N x len hN budget 0 0 (N - 1) (by omega) (by omega)
      (Fits.root hN1)).1 st hst
    exact ⟨h1.1, h1.2, h2.1⟩
  · rw [sub64_one hN1 (by omega)]
    exact (lower_bound_ok_iff tree x fuel 0 0 (N - 1) _).1
      (lower_bound_spec data tree N x _ hlen hN hp fuel 0 0 (N - 1) (by omega) (by omega)
        (by omega) (Fits.root hN1) nd (by omega) (by omega))

/-- C15, at the key sequence `[10, 20, 20, 30]` with `N = 4` and `x = 20`. -/
theorem seg_tree_descent_window_witness :
    List.Sorted (· ≤ ·) [10, 20, 20, 30] ∧
      ∃ s p, seg_tree_sln.new 4 4 [10, 20, 20, 30] = .ok s ∧ IsLowerBound [10, 20, 20, 30] 20 p ∧
        (∀ budget st, st ∈ seg_tree_sln.lower_bound_states s.tree 20 budget 0 0 (sub64 4 1) →
          st.2.1 ≤ p ∧ p ≤ st.2.2 ∧ Covers 0 0 (4 - 1) st.1 st.2.1 st.2.2) ∧
        ∃ u, (seg_tree_sln.lower_bound_states s.tree 20 4 0 0 (sub64 4 1)).getLast? =
          some (u, p, p) :=
  ⟨by decide, seg_tree_descent_window 4 4 [10, 20, 20, 30] 20 (by decide) rfl (by decide)
    (by decide) (by decide) (by decide)⟩

/-- C16. Layer construction: for every `P ≥ 1`, `L ≥ 1` (`std::size_t` values)
and key sequence of length `n` (below `2^60`), with a budget of at least `n`
and `L`, the constructor of `layers_sln` returns `L` layers with `layers[0]`
equal to the key sequence and, for every `k` with `k + 1 < L`, `layers[k+1]` of
size `ceil(|layers[k]| / P)` with `layers[k+1][j] = layers[k][j*P]` for every
`j`; consequently `layers[k]` has exactly `ceil(n / P^k)` entries,
`layers[k][j] = key[j * P^k]`, and every layer is sorted when the key sequence
is. (`ceil(a / b)` is written `(a + b - 1) / b`.) -/
theorem layers_construction (P L fuel : Nat) (data : List Nat)
    (hP1 : 1 ≤ P) (hP : P < 18446744073709551616)
    (hL1 : 1 ≤ L) (hL : L < 18446744073709551616)
    (hn : data.length < 1152921504606846976) (hfuel : data.length ≤ fuel) (hfuelL : L ≤ fuel) :
    ∃ s, layers_sln.new P L fuel data = .ok s ∧ s.layers.length = L ∧
      s.layers[0]? = some data ∧
      (∀ k, k + 1 < L → ∃ a b, s.layers[k]? = some a ∧ s.layers[k + 1]? = some b ∧
        b.length = (a.length + P - 1) / P ∧ ∀ j, j < b.length → b.getD j 0 = a.getD (j * P) 0) ∧
      (∀ k, k < L → ∃ row, s.layers[k]? = some row ∧
        row.length = (data.length + P ^ k - 1) / P ^ k ∧
        (∀ j, j < row.length → row.getD j 0 = data.getD (j * P ^ k) 0) ∧
        (data.Sorted (· ≤ ·) → row.Sorted (· ≤ ·))) := by
  obtain ⟨ls, e, hls⟩ := layers_new_spec P L fuel data hP1 hP (by omega) hL1 hL hfuel hfuelL
  refine ⟨_, e, hls.length_eq, hls.first, ?_, ?_⟩
  · intro k hk
    obtain ⟨row, hr, hs⟩ := hls.next k hk
    exact ⟨row, _, hr, hs, length_sampled P row, fun j hj => getD_sampled row j hj⟩
  · intro k hk
    have hPk : 1 ≤ P ^ k := Nat.one_le_pow _ _ hP1
    exact ⟨_, hls.row_eq hP1 k hk, length_sampled _ data, fun j hj => getD_sampled data j hj,
      fun hs => sorted_sampled hPk hs⟩

/-- C16, at stride `2`, three layers and the key sequence `[10, 20, 20, 30, 40]`. -/
theorem layers_construction_witness :
    ∃ s, layers_sln.new 2 3 5 [10, 20, 20, 30, 40] = .ok s ∧ s.layers.length = 3 ∧
      s.layers[0]? = some [10, 20, 20, 30, 40] ∧
      (∀ k, k + 1 < 3 → ∃ a b, s.layers[k]? = some a ∧ s.layers[k + 1]? = some b ∧
        b.length = (a.length + 2 - 1) / 2 ∧ ∀ j, j < b.length → b.getD j 0 = a.getD (j * 2) 0) ∧
      (∀ k, k < 3 → ∃ row, s.layers[k]? = some row ∧
        row.length = (([10, 20, 20, 30, 40] : List Nat).length + 2 ^ k - 1) / 2 ^ k ∧
        (∀ j, j < row.length →
          row.getD j 0 = ([10, 20, 20, 30, 40] : List Nat).getD (j * 2 ^ k) 0) ∧
        (([10, 20, 20, 30, 40] : List Nat).Sorted (· ≤ ·) → row.Sorted (· ≤ ·))) :=
  layers_construction 2 3 5 [10, 20, 20, 30, 40] (by decide) (by decide) (by decide)
    (by decide) (by decide) (by decide) (by decide)

/-- C17. Layered scan stays in bounds: for every `P ≥ 1`, `L ≥ 1` (`std::size_t`
values), every key sequence of length `N` (`1 ≤ N`, below `2^60`; sorted or
not) and every `x`, with a budget of at least `N` and `L`: construction and
`get` return without an access past the end of a layer (the guarded accesses
`layers[layer][index + 1]` and the final access `layers[0][index]` included);
the layer loop goes through all its layers, and in each of them the running
index after `index *= P` and after the scan is a position of that layer; the
index with which the loop ends is a position of `layers[0]`. -/
theorem layers_get_in_bounds (P L N fuel : Nat) (data : List Nat) (x : Nat)
    (hP1 : 1 ≤ P) (hP : P < 18446744073709551616)
    (hL1 : 1 ≤ L) (hL : L < 18446744073709551616)
    (hlen : data.length = N) (hN1 : 1 ≤ N) (hN : N < 1152921504606846976)
    (hfuel : N ≤ fuel) (hfuelL : L ≤ fuel) :
    ∃ s, layers_sln.new P L fuel data = .ok s ∧
      (∃ i, layers_sln.get P L N fuel s x = .ok i ∧ i ≤ N) ∧
      (layers_sln.descend_states P fuel s.layers x (layerCount L) 0).length = layerCount L ∧
      (∀ st, st ∈ layers_sln.descend_states P fuel s.layers x (layerCount L) 0 →
        ∃ row, s.layers[st.1]? = some row ∧ st.2.1 < row.length ∧ st.2.2 < row.length) ∧
      (∃ index, layers_sln.descend P fuel s.layers x (layerCount L) 0 = .ok index ∧
        s.layers[0]? = some data ∧ index < data.length) := by
  obtain ⟨ls, e, hls⟩ := layers_new_spec P L fuel data hP1 hP (by omega) hL1 hL (by omega) hfuelL
  obtain ⟨index, i, hd, hidx, hg, hi, hst⟩ := layers_get_total P L N fuel data ls x hP1 hL1 hL
    hlen hN1 (by omega) hfuel hls
  refine ⟨_, e, ⟨i, hg, hi⟩, (descend_ok_states P fuel ls x _ 0 index hd).1, ?_,
    ⟨index, hd, hls.first, by omega⟩⟩
  intro st hmem
  obtain ⟨row, hr, a, _, b⟩ := hst st hmem
  exact ⟨row, hr, a, b⟩

/-- C17, at the compiled pair `L = 3`, `P = 51`, the unsorted key sequence
`[30, 10, 20, 20]` with `N = 4` and `x = 25`. -/
theorem layers_get_in_bounds_witness :
    ∃ s, layers_sln.new layers_sln.P layers_sln.L 4 [30, 10, 20, 20] = .ok s ∧
      (∃ i, layers_sln.get layers_sln.P layers_sln.L 4 4 s 25 = .ok i ∧ i ≤ 4) ∧
      (layers_sln.descend_states layers_sln.P 4 s.layers 25 (layerCount layers_sln.L) 0).length =
        layerCount layers_sln.L ∧
      (∀ st, st ∈ layers_sln.descend_states layers_sln.P 4 s.layers 25
          (layerCount layers_sln.L) 0 →
        ∃ row, s.layers[st.1]? = some row ∧ st.2.1 < row.length ∧ st.2.2 < row.length) ∧
      (∃ index, layers_sln.descend layers_sln.P 4 s.layers 25 (layerCount layers_sln.L) 0 =
          .ok index ∧
        s.layers[0]? = some [30, 10, 20, 20] ∧ index < ([30, 10, 20, 20] : List Nat).length) :=
  layers_get_in_bounds layers_sln.P layers_sln.L 4 4 [30, 10, 20, 20] 25 (by decide) (by decide)
    (by decide) (by decide) rfl (by decide) (by decide) (by decide) (by decide)

/-- C18 as stated fails: with `L = 2^32 + 3` layers the initial value
`int layer = L - 1` is `2`, so the loop of `get` starts in layer `2`, which is
not the coarsest one; with stride `P = 1` on the sorted key sequence `[0, 1, 2]`
and `x = 3` the scan of that layer advances the running index from `0` to `2`,
that is twice, more than `P - 1 = 0` times. -/
theorem layers_scan_bound_counterexample :
    List.Sorted (· ≤ ·) [0, 1, 2] ∧
      ∃ s st, layers_sln.new 1 4294967299 4294967299 [0, 1, 2] = .ok s ∧
        st ∈ layers_sln.descend_states 1 4294967299 s.layers 3 (layerCount 4294967299) 0 ∧
        st = (2, 0, 2) ∧ st.1 < 4294967299 - 1 ∧ ¬ (st.2.2 - st.2.1 ≤ 1 - 1) := by
  refine ⟨by decide, ?_⟩
  obtain ⟨ls, e, hls⟩ := layers_new_spec 1 4294967299 4294967299 [0, 1, 2] (by decide)
    (by decide) (by decide) (by decide) (by decide) (by decide) (le_refl _)
  have h2 : ls[2]? = some [0, 1, 2] := by
    rw [hls.row_eq (by decide) 2 (by decide)]
    rfl
  have hc : layerCount 4294967299 = 3 := by decide
  have hscan : layers_sln.scan [0, 1, 2] 3 4294967299 (wrap64 (0 * 1)) = .ok 2 := by
    rw [scan_spec [0, 1, 2] 3 3 (sorted_thresh [0, 1, 2] 3 (by decide)) (by decide) 4294967299
      (wrap64 (0 * 1)) (by decide) (by decide)]
    rfl
  refine ⟨_, (2, 0, 2), e, ?_, rfl, by decide, by decide⟩
  show (2, 0, 2) ∈ layers_sln.descend_states 1 4294967299 ls 3 (layerCount 4294967299) 0
  rw [hc]
  unfold layers_sln.descend_states
  rw [h2]
  simp only
  rw [hscan]
  exact List.mem_cons_self _ _

/-- C18, amended. For every `P ≥ 1`, every `L ≥ 2` (`std::size_t` values), every
sorted key sequence of length `N` (`1 ≤ N`, below `2^60`) and every `x`, with a
budget of at least `N` and `L`: the loop of `get` goes through the layers
`int(L - 1), ..., 0`, and in every layer below the one it starts in the scan
advances the running index at most `P - 1` times after the multiplication by
`P` (the index grows by at most `P - 1`, and a budget of `P - 1` advances is
enough for that scan). For every `L ≤ 2^31` the loop starts in the coarsest
layer `L - 1`, so that this is every layer other than the coarsest one. -/
theorem layers_scan_bound (P L N fuel : Nat) (data : List Nat) (x : Nat)
    (hP1 : 1 ≤ P) (hP : P < 18446744073709551616)
    (hL2 : 2 ≤ L) (hL : L < 18446744073709551616)
    (hsorted : data.Sorted (· ≤ ·)) (hlen : data.length = N) (hN1 : 1 ≤ N)
    (hN : N < 1152921504606846976) (hfuel : N ≤ fuel) (hfuelL : L ≤ fuel) :
    ∃ s, layers_sln.new P L fuel data = .ok s ∧
      (layers_sln.descend_states P fuel s.layers x (layerCount L) 0).length = layerCount L ∧
      (∀ st, st ∈ layers_sln.descend_states P fuel s.layers x (layerCount L) 0 →
        st.1 + 1 < layerCount L →
        st.2.1 ≤ st.2.2 ∧ st.2.2 - st.2.1 ≤ P - 1 ∧
          ∃ row, s.layers[st.1]? = some row ∧
            layers_sln.scan row x (P - 1) st.2.1 = .ok st.2.2) ∧
      (L ≤ 2147483648 → layerCount L = L) := by
  obtain ⟨ls, e, hls⟩ := layers_new_spec P L fuel data hP1 hP (by omega) (by omega) hL
    (by omega) hfuelL
  obtain ⟨h1, h2⟩ := layers_scan_gap P L N fuel data ls x hP1 (by omega) hL hsorted hlen
    (by omega) hfuel hls
  exact ⟨_, e, h1, h2, fun h => layerCount_eq (by omega) h⟩

/-- C18 amended, at stride `2`, three layers, the key sequence
`[10, 20, 20, 30, 40, 50, 60]` with `N = 7` and `x = 55`. -/
theorem layers_scan_bound_witness :
    List.Sorted (· ≤ ·) [10, 20, 20, 30, 40, 50, 60] ∧
      ∃ s, layers_sln.new 2 3 7 [10, 20, 20, 30, 40, 50, 60] = .ok s ∧
        (layers_sln.descend_states 2 7 s.layers 55 (layerCount 3) 0).length = layerCount 3 ∧
        (∀ st, st ∈ layers_sln.descend_states 2 7 s.layers 55 (layerCount 3) 0 →
          st.1 + 1 < layerCount 3 →
          st.2.1 ≤ st.2.2 ∧ st.2.2 - st.2.1 ≤ 2 - 1 ∧
            ∃ row, s.layers[st.1]? = some row ∧
              layers_sln.scan row 55 (2 - 1) st.2.1 = .ok st.2.2) ∧
        (3 ≤ 2147483648 → layerCount 3 = 3) :=
  ⟨by decide, layers_scan_bound 2 3 7 7 [10, 20, 20, 30, 40, 50, 60] 55 (by decide) (by decide)
    (by decide) (by decide) (by decide) rfl (by decide) (by decide) (by decide) (by decide)⟩

/-- C19. Descent termination: for every tree, every `x`, every node `v` and
every window `tl ≤ tr` of positions (below `2^63`), the loop of
`seg_tree_sln::lower_bound` does not use up a budget of `tr - tl` iterations:
it returns a position in `[tl, tr]`, unless it stops at a read of `tree[v]`
past the end; from each state of the loop to the next the window keeps
`tl ≤ tr` and `tr - tl` strictly decreases. Started on `[0, N-1]` in a tree of
`4 * N` entries (`1 ≤ N`, below `2^60`) it returns a position in `[0, N-1]`
within a budget of `ceil(log2 N)` iterations, and its list of states has at
most `ceil(log2 N) + 1` entries. -/
theorem lower_bound_loop_terminates (tree : List Nat) (x : Nat) :
    (∀ fuel v tl tr, tl ≤ tr → tr < 9223372036854775808 → tr - tl ≤ fuel →
      ((∃ i, seg_tree_sln.lower_bound tree x fuel v tl tr = .ok i ∧ tl ≤ i ∧ i ≤ tr) ∨
        seg_tree_sln.lower_bound tree x fuel v tl tr = .error .outOfBounds) ∧
      List.Chain'
        (fun s s' : Nat × Nat × Nat => s'.2.1 ≤ s'.2.2 ∧ s'.2.2 - s'.2.1 < s.2.2 - s.2.1)
        (seg_tree_sln.lower_bound_states tree x fuel v tl tr)) ∧
    (∀ N fuel, 1 ≤ N → N < 1152921504606846976 → tree.length = 4 * N → Nat.clog 2 N ≤ fuel →
      (∃ i, seg_tree_sln.lower_bound tree x fuel 0 0 (sub64 N 1) = .ok i ∧ i ≤ N - 1) ∧
      (seg_tree_sln.lower_bound_states tree x fuel 0 0 (sub64 N 1)).length ≤
        Nat.clog 2 N + 1) := by
  constructor
  · intro fuel v tl tr h1 h2 h3
    exact ⟨lower_bound_terminates tree x fuel v tl tr h1 h2 h3,
      lower_bound_states_chain tree x fuel v tl tr h1 h2⟩
  · intro N fuel hN1 hN htree hfuel
    rw [sub64_one hN1 (by omega)]
    obtain ⟨_, hlen, hok⟩ := lower_bound_run tree N x htree hN fuel 0 0 (N - 1) (by omega)
      (by omega) (Fits.root hN1)
    have hclog : N ≤ 2 ^ Nat.clog 2 N := Nat.le_pow_clog (by decide) N
    have hpow : 2 ^ Nat.clog 2 N ≤ 2 ^ fuel := Nat.pow_le_pow_right (by decide) hfuel
    obtain ⟨i, e, _, hi⟩ := hok (by omega)
    exact ⟨⟨i, e, hi⟩, hlen _ (by omega)⟩

/-- C19, at a tree of `20` entries: the window `[3, 9]` from node `1`, and
`N = 5` from the root with the budget `ceil(log2 5)`. -/
theorem lower_bound_loop_terminates_witness :
    (((∃ i, seg_tree_sln.lower_bound (List.replicate 20 7) 9 6 1 3 9 = .ok i ∧ 3 ≤ i ∧ i ≤ 9) ∨
        seg_tree_sln.lower_bound (List.replicate 20 7) 9 6 1 3 9 = .error .outOfBounds) ∧
      List.Chain'
        (fun s s' : Nat × Nat × Nat => s'.2.1 ≤ s'.2.2 ∧ s'.2.2 - s'.2.1 < s.2.2 - s.2.1)
        (seg_tree_sln.lower_bound_states (List.replicate 20 7) 9 6 1 3 9)) ∧
    ((∃ i, seg_tree_sln.lower_bound (List.replicate 20 7) 9 (Nat.clog 2 5) 0 0 (sub64 5 1) =
          .ok i ∧ i ≤ 5 - 1) ∧
      (seg_tree_sln.lower_bound_states (List.replicate 20 7) 9 (Nat.clog 2 5) 0 0
        (sub64 5 1)).length ≤ Nat.clog 2 5 + 1) :=
  ⟨(lower_bound_loop_terminates (List.replicate 20 7) 9).1 6 1 3 9 (by decide) (by decide)
      (by decide),
    (lower_bound_loop_terminates (List.replicate 20 7) 9).2 5 (Nat.clog 2 5) (by decide)
      (by decide) rfl (le_refl _)⟩

end FindAlgo
